import Mathlib

/-!
Verification development for `source/server/dsp_thread_queue.hpp`, the parallel
task-graph executor of the DSP engine (queue items, thread queue, queue
interpreter).

Embedding conventions:
- C++ pointers to `dsp_thread_queue_item` objects are modelled as indices into
  the owning graph's `queue_items` list (the arena-of-nodes shape; all items of
  a queue are owned by that queue).
- The machine counters `boost::uint_fast16_t` / `uint_fast8_t` are modelled as
  `Nat`.  The only subtraction sites in the source are guarded by
  `assert(current > 0)` resp. `assert(remaining >= consumed)`; we track those
  assertions, so unsigned wrap-around is unreachable on the asserted domain and
  truncated `Nat` subtraction agrees with the machine arithmetic there.
- The opaque `runnable` payload is inert for the scheduler; a job invocation
  `job(thread_index)` is recorded in an execution trace.
- The lock-free FIFO is modelled as an unbounded list: `boost::lockfree::fifo`
  preallocates 1024 slots but grows on demand, so no enqueue is dropped and
  dequeue order is the queue order.
- `assert(...)` statements are modelled as named `Prop`s next to the function
  they guard (release builds execute past them, so the state transformers stay
  total).
-/

namespace Nova

/-- One DAG vertex, `dsp_thread_queue_item`: activation counter, job payload,
successor list (indices into the owning queue) and the immutable activation
limit (number of predecessors). -/
structure dsp_thread_queue_item where
  activation_count : Nat
  job : Nat
  successors : List Nat
  activation_limit : Nat
deriving DecidableEq

instance : Inhabited dsp_thread_queue_item :=
  ⟨{ activation_count := 0, job := 0, successors := [], activation_limit := 0 }⟩

/-- The item constructor.  The source initialiser list is
`activation_count(0), job(job), successors(successors), activation_limit(activation_limit)`. -/
def dsp_thread_queue_item.make (job : Nat) (successors : List Nat)
    (activation_limit : Nat) : dsp_thread_queue_item :=
  { activation_count := 0, job := job, successors := successors,
    activation_limit := activation_limit }

/-- `reset_activation_count`: stores `activation_limit` into `activation_count`
(release ordering in the source). -/
def dsp_thread_queue_item.reset_activation_count (it : dsp_thread_queue_item) :
    dsp_thread_queue_item :=
  { it with activation_count := it.activation_limit }

/-- The `assert(activation_count == 0)` at the head of `reset_activation_count`. -/
def dsp_thread_queue_item.reset_activation_count_assert
    (it : dsp_thread_queue_item) : Prop :=
  it.activation_count = 0

/-- The per-tick DAG container, `dsp_thread_queue`: node count, the list of
initially runnable items (indices) and the owned items. -/
structure dsp_thread_queue where
  total_node_count : Nat
  initially_runnable_items : List Nat
  queue_items : List dsp_thread_queue_item
deriving DecidableEq

/-- `dsp_thread_queue()` constructor: `total_node_count(0)`. -/
def dsp_thread_queue.empty : dsp_thread_queue :=
  { total_node_count := 0, initially_runnable_items := [], queue_items := [] }

/-- `add_initially_runnable`. -/
def dsp_thread_queue.add_initially_runnable (q : dsp_thread_queue) (item : Nat) :
    dsp_thread_queue :=
  { q with initially_runnable_items := q.initially_runnable_items ++ [item] }

/-- `add_queue_item` (takes ownership, bumps `total_node_count`). -/
def dsp_thread_queue.add_queue_item (q : dsp_thread_queue)
    (item : dsp_thread_queue_item) : dsp_thread_queue :=
  { q with queue_items := q.queue_items ++ [item],
           total_node_count := q.total_node_count + 1 }

/-- The `assert(total_node_count == queue_items.size())` maintained by
`add_queue_item` and rechecked by `reset_activation_counts`. -/
def dsp_thread_queue.size_assert (q : dsp_thread_queue) : Prop :=
  q.total_node_count = q.queue_items.length

/-- `reset_activation_counts`: reset every owned item (the source loops over
all `total_node_count` items, which by `size_assert` is all of `queue_items`). -/
def dsp_thread_queue.reset_activation_counts (q : dsp_thread_queue) :
    dsp_thread_queue :=
  { q with queue_items :=
      q.queue_items.map dsp_thread_queue_item.reset_activation_count }

/-- `get_total_node_count`. -/
def dsp_thread_queue.get_total_node_count (q : dsp_thread_queue) : Nat :=
  q.total_node_count

/-- Dereference an item pointer: index into the owning queue. -/
def qitem (q : dsp_thread_queue) (v : Nat) : dsp_thread_queue_item :=
  q.queue_items.getD v default

/-- Number of owned items of the queue. -/
def numItems (q : dsp_thread_queue) : Nat :=
  q.queue_items.length

/-- `std::numeric_limits<thread_count_t>::max()` for
`thread_count_t = boost::uint_fast8_t` (8-bit on the reference platform). -/
def thread_count_max : Nat := 255

/-- The scheduler, `dsp_queue_interpreter`: installed queue, configured thread
count, derived helper-thread count, ready FIFO (of item indices) and the
remaining-node counter. -/
structure dsp_queue_interpreter where
  queue : Option dsp_thread_queue
  thread_count : Nat
  used_helper_threads : Nat
  fifo : List Nat
  node_count : Nat

/-- `set_thread_count`: clamps to at least 1. -/
def dsp_queue_interpreter.set_thread_count (i : dsp_queue_interpreter)
    (tc : Nat) : dsp_queue_interpreter :=
  { i with thread_count := max 1 tc }

/-- The `assert(i < numeric_limits<thread_count_t>::max())` in `set_thread_count`. -/
def dsp_queue_interpreter.set_thread_count_assert (tc : Nat) : Prop :=
  tc < thread_count_max

/-- `dsp_queue_interpreter(thread_count_t tc)`: `fifo(1024), node_count(0)` then
`set_thread_count(tc)`.  The member `used_helper_threads` is left uninitialised
by the source constructor; the model takes its indeterminate value as a
parameter. -/
def dsp_queue_interpreter.construct (tc : Nat) (uht0 : Nat) :
    dsp_queue_interpreter :=
  dsp_queue_interpreter.set_thread_count
    { queue := none, thread_count := 0, used_helper_threads := uht0,
      fifo := [], node_count := 0 } tc

/-- `mark_as_runnable`: enqueue into the lock-free FIFO. -/
def dsp_queue_interpreter.mark_as_runnable (i : dsp_queue_interpreter)
    (item : Nat) : dsp_queue_interpreter :=
  { i with fifo := i.fifo ++ [item] }

/-- `init_tick`: returns `false` when no queue is installed or the queue has no
nodes; otherwise stores the total node count into `node_count` and enqueues the
initially runnable items in order. -/
def dsp_queue_interpreter.init_tick (i : dsp_queue_interpreter) :
    dsp_queue_interpreter × Bool :=
  match i.queue with
  | none => (i, false)
  | some q =>
    if q.get_total_node_count = 0 then (i, false)
    else
      ({ i with node_count := q.get_total_node_count,
                fifo := i.fifo ++ q.initially_runnable_items }, true)

/-- The quiescence asserts at the head of `init_tick`:
`assert(node_count == 0); assert(fifo.empty());`. -/
def dsp_queue_interpreter.init_tick_assert (i : dsp_queue_interpreter) : Prop :=
  i.node_count = 0 ∧ i.fifo = []

/-- `release_queue`: detach and return the installed queue. -/
def dsp_queue_interpreter.release_queue (i : dsp_queue_interpreter) :
    dsp_queue_interpreter × Option dsp_thread_queue :=
  ({ i with queue := none }, i.queue)

/-- `reset_queue`: swap in `new_queue`, returning the old one.  For a non-null
new queue, reset its activation counts and recompute `used_helper_threads` as
`min(min(total_node_count, thread_count_t::max), thread_count) - 1`.
(The subtraction is on `uint_fast8_t` in the source; on the exercised domain
`thread_number >= 1` — nonempty queue and clamped `thread_count >= 1` — so
truncated subtraction agrees.) -/
def dsp_queue_interpreter.reset_queue (i : dsp_queue_interpreter)
    (new_queue : Option dsp_thread_queue) :
    dsp_queue_interpreter × Option dsp_thread_queue :=
  let ret := i.queue
  match new_queue with
  | none => ({ i with queue := none }, ret)
  | some q =>
    let q2 := q.reset_activation_counts
    let thread_number := min (min q2.get_total_node_count thread_count_max)
      i.thread_count
    ({ i with queue := some q2,
              used_helper_threads := thread_number - 1 }, ret)

/-- `get_used_helper_threads`. -/
def dsp_queue_interpreter.get_used_helper_threads (i : dsp_queue_interpreter) :
    Nat :=
  i.used_helper_threads

/-- `get_thread_count`. -/
def dsp_queue_interpreter.get_thread_count (i : dsp_queue_interpreter) : Nat :=
  i.thread_count

/-!
Per-tick state.  During a tick the installed queue's static data (successor
lists, activation limits) is read-only; the mutable state is the items'
activation counters, the interpreter FIFO and `node_count`.  `executed` is the
trace of job invocations (the observable effect of the opaque `runnable`).
-/

/-- Mutable per-tick state: activation counters (indexed like `queue_items`),
the ready FIFO, the remaining-node counter, and the job-invocation trace. -/
structure SState where
  counts : List Nat
  fifo : List Nat
  node_count : Nat
  executed : List Nat
deriving DecidableEq

/-- Read an item's `activation_count`. -/
def countOf (s : SState) (v : Nat) : Nat :=
  s.counts.getD v 0

/-- Write an item's `activation_count`. -/
def setCount (s : SState) (v x : Nat) : SState :=
  { s with counts := s.counts.set v x }

/-- FIFO enqueue (`interpreter.mark_as_runnable(this)`). -/
def fifoPush (s : SState) (v : Nat) : SState :=
  { s with fifo := s.fifo ++ [v] }

/-- The two-argument `dec_ref_count(interpreter, ptr)`:
`current = activation_count--; if (current == 1) { if (!ptr) ptr = this; else mark_as_runnable(this); }`. -/
def dec_ref_count_ptr (s : SState) (ptr : Option Nat) (self : Nat) :
    SState × Option Nat :=
  let current := countOf s self
  let s1 := setCount s self (current - 1)
  if current = 1 then
    match ptr with
    | none => (s1, some self)
    | some _ => (fifoPush s1 self, ptr)
  else (s1, ptr)

/-- The one-argument `dec_ref_count(interpreter)`:
`current = activation_count--; if (current == 1) mark_as_runnable(this);`. -/
def dec_ref_count (s : SState) (self : Nat) : SState :=
  let current := countOf s self
  let s1 := setCount s self (current - 1)
  if current = 1 then fifoPush s1 self else s1

/-- The `assert(current > 0)` in both `dec_ref_count` overloads. -/
def dec_ref_count_assert (s : SState) (self : Nat) : Prop :=
  0 < countOf s self

/-- First loop of `update_dependencies`: decrement successors until the `ptr`
slot is filled; returns the state, the `ptr` and the unprocessed suffix. -/
def upd_loop1 : SState → List Nat → SState × Option Nat × List Nat
  | s, [] => (s, none, [])
  | s, j :: rest =>
    match dec_ref_count_ptr s none j with
    | (s1, some p) => (s1, some p, rest)
    | (s1, none) => upd_loop1 s1 rest

/-- Second loop of `update_dependencies`: decrement the remaining successors,
enqueueing every one that becomes ready. -/
def upd_loop2 : SState → List Nat → SState
  | s, [] => s
  | s, j :: rest => upd_loop2 (dec_ref_count s j) rest

/-- `update_dependencies`: returns the first successor that became ready (to be
run directly), enqueueing all further ready successors; `none` when no
successor became ready. -/
def update_dependencies (q : dsp_thread_queue) (s : SState) (v : Nat) :
    SState × Option Nat :=
  match upd_loop1 s (qitem q v).successors with
  | (s1, none, _) => (s1, none)
  | (s1, some p, rest) => (upd_loop2 s1 rest, some p)

/-- `dsp_thread_queue_item::run`: invoke the job (recorded in the trace),
update dependencies, reset the own activation count, return the next item. -/
def item_run (q : dsp_thread_queue) (s : SState) (v : Nat) :
    SState × Option Nat :=
  let s0 := { s with executed := s.executed ++ [v] }
  match update_dependencies q s0 v with
  | (s1, next) => (setCount s1 v (qitem q v).activation_limit, next)

/-- The `assert(activation_count == 0)` at the head of `run`. -/
def item_run_assert (s : SState) (v : Nat) : Prop :=
  countOf s v = 0

/-- Return values of `run_next_item`. -/
inductive RunStatus where
  | no_remaining_items : RunStatus
  | fifo_empty : RunStatus
  | remaining_items : RunStatus
deriving DecidableEq

/-- The do-while chain of `run_next_item`:
`do { item = item->run(*this, index); consumed += 1; } while (item != NULL);`.
The source loop terminates on every DAG; the model bounds the recursion by
`fuel` and reports in the `Bool` whether the chain ran to completion. -/
def run_loop (q : dsp_thread_queue) :
    Nat → SState → Nat → Nat → SState × Nat × Bool
  | fuel, s, v, consumed =>
    match item_run q s v, fuel with
    | (s1, none), _ => (s1, consumed + 1, true)
    | (s1, some u), Nat.succ fuel1 => run_loop q fuel1 s1 u (consumed + 1)
    | (s1, some _), 0 => (s1, consumed + 1, false)

/-- `run_next_item`: dequeue an item (or report `fifo_empty`), run the direct
successor chain, then subtract `consumed` from `node_count` with a single
fetch-sub and compare the previous value with `consumed`. -/
def run_next_item (q : dsp_thread_queue) (fuel : Nat) (s : SState) :
    SState × RunStatus × Bool :=
  match s.fifo with
  | [] => (s, RunStatus.fifo_empty, true)
  | v :: rest =>
    match run_loop q fuel { s with fifo := rest } v 0 with
    | (s1, consumed, ok) =>
      let remaining := s1.node_count
      ({ s1 with node_count := remaining - consumed },
        (if remaining = consumed then RunStatus.no_remaining_items
         else RunStatus.remaining_items), ok)

/-- The `assert(remaining >= consumed)` after the fetch-sub in `run_next_item`. -/
def run_next_item_assert (remaining consumed : Nat) : Prop :=
  consumed ≤ remaining

/-!
The concurrent tick machine.  `tick_master` runs the worker loop `run_item(0)`
on the master thread while every woken helper runs `run_item(index)`; the
shared state (item counters, the lock-free FIFO, `node_count`) is touched only
through individual atomic operations.  The machine below interleaves the
workers at exactly that granularity: each step is one worker performing its
next atomic access.  (A `dec_ref_count` that publishes a newly ready node is
one step: between its fetch-sub and its enqueue the affected node sits in no
shared structure and its counter can receive no further decrement, so no other
worker can observe the intermediate point.)
-/

/-- Control state of one worker inside `run_item`/`run_next_item`. -/
inductive WPC where
  /-- head of the outer loop of `run_item`: about to load `node_count` -/
  | top : WPC
  /-- about to attempt `fifo.dequeue` -/
  | deq : WPC
  /-- about to invoke `item->run`: current item, chain length so far -/
  | runJob : Nat → Nat → WPC
  /-- inside `update_dependencies` of an item: item, unprocessed successor
  suffix, the `ptr` slot, chain length before this item -/
  | decSucc : Nat → List Nat → Option Nat → Nat → WPC
  /-- chain finished, about to `node_count.fetch_sub(consumed)` -/
  | fsub : Nat → WPC
  /-- returned from `run_item` -/
  | done : WPC
deriving DecidableEq

/-- A machine configuration: the shared per-tick state plus every worker's
control state (index 0 is the master). -/
structure Config where
  counts : List Nat
  fifo : List Nat
  node_count : Nat
  executed : List Nat
  ws : List WPC
deriving DecidableEq

/-- One interleaving step: some worker `w` performs its next atomic access. -/
inductive Step (q : dsp_thread_queue) : Config → Config → Prop where
  /-- `run_item`: `node_count.load == 0`, return from the worker loop -/
  | top_done (c : Config) (w : Nat)
      (h : c.ws[w]? = some WPC.top) (h0 : c.node_count = 0) :
      Step q c { c with ws := c.ws.set w WPC.done }
  /-- `run_item`: `node_count.load != 0`, fall through to `run_next_item` -/
  | top_go (c : Config) (w : Nat)
      (h : c.ws[w]? = some WPC.top) (h0 : c.node_count ≠ 0) :
      Step q c { c with ws := c.ws.set w WPC.deq }
  /-- `fifo.dequeue` failed: `run_next_item` returns `fifo_empty`, outer loop retries -/
  | deq_empty (c : Config) (w : Nat)
      (h : c.ws[w]? = some WPC.deq) (hf : c.fifo = []) :
      Step q c { c with ws := c.ws.set w WPC.top }
  /-- `fifo.dequeue` succeeded: begin the chain with `consumed = 0` -/
  | deq_pop (c : Config) (w v : Nat) (rest : List Nat)
      (h : c.ws[w]? = some WPC.deq) (hf : c.fifo = v :: rest) :
      Step q c { c with fifo := rest, ws := c.ws.set w (WPC.runJob v 0) }
  /-- `run`: invoke `job(thread_index)` and enter `update_dependencies` -/
  | run_job (c : Config) (w v k : Nat)
      (h : c.ws[w]? = some (WPC.runJob v k)) :
      Step q c { c with
                  executed := c.executed ++ [v],
                  ws := c.ws.set w (WPC.decSucc v (qitem q v).successors none k) }
  /-- `dec_ref_count` on successor `j`, previous value not 1 -/
  | dec_skip (c : Config) (w v j : Nat) (rest : List Nat) (first : Option Nat)
      (k : Nat) (h : c.ws[w]? = some (WPC.decSucc v (j :: rest) first k))
      (hc : c.counts.getD j 0 ≠ 1) :
      Step q c { c with
                  counts := c.counts.set j (c.counts.getD j 0 - 1),
                  ws := c.ws.set w (WPC.decSucc v rest first k) }
  /-- `dec_ref_count` on successor `j`, previous value 1, `ptr` empty: capture -/
  | dec_first (c : Config) (w v j : Nat) (rest : List Nat) (k : Nat)
      (h : c.ws[w]? = some (WPC.decSucc v (j :: rest) none k))
      (hc : c.counts.getD j 0 = 1) :
      Step q c { c with
                  counts := c.counts.set j (c.counts.getD j 0 - 1),
                  ws := c.ws.set w (WPC.decSucc v rest (some j) k) }
  /-- `dec_ref_count` on successor `j`, previous value 1, `ptr` occupied:
  `mark_as_runnable(j)` -/
  | dec_enq (c : Config) (w v j : Nat) (rest : List Nat) (u k : Nat)
      (h : c.ws[w]? = some (WPC.decSucc v (j :: rest) (some u) k))
      (hc : c.counts.getD j 0 = 1) :
      Step q c { c with
                  counts := c.counts.set j (c.counts.getD j 0 - 1),
                  fifo := c.fifo ++ [j],
                  ws := c.ws.set w (WPC.decSucc v rest (some u) k) }
  /-- successors exhausted, `ptr` holds `u`: `reset_activation_count`, `run`
  returns `u`, the do-while continues with `consumed + 1` -/
  | chain_next (c : Config) (w v u k : Nat)
      (h : c.ws[w]? = some (WPC.decSucc v [] (some u) k)) :
      Step q c { c with
                  counts := c.counts.set v (qitem q v).activation_limit,
                  ws := c.ws.set w (WPC.runJob u (k + 1)) }
  /-- successors exhausted, `ptr` empty: `reset_activation_count`, `run`
  returns NULL, the do-while ends with `consumed + 1` -/
  | chain_done (c : Config) (w v k : Nat)
      (h : c.ws[w]? = some (WPC.decSucc v [] none k)) :
      Step q c { c with
                  counts := c.counts.set v (qitem q v).activation_limit,
                  ws := c.ws.set w (WPC.fsub (k + 1)) }
  /-- `node_count.fetch_sub(consumed)` returned `consumed`: this worker ran the
  final nodes, `run_next_item` returns `no_remaining_items`, `run_item` returns -/
  | fsub_last (c : Config) (w k : Nat)
      (h : c.ws[w]? = some (WPC.fsub k)) (hk : c.node_count = k) :
      Step q c { c with
                  node_count := c.node_count - k,
                  ws := c.ws.set w WPC.done }
  /-- `node_count.fetch_sub(consumed)` returned more than `consumed`:
  `run_next_item` returns `remaining_items`, the outer loop retries -/
  | fsub_cont (c : Config) (w k : Nat)
      (h : c.ws[w]? = some (WPC.fsub k)) (hk : c.node_count ≠ k) :
      Step q c { c with
                  node_count := c.node_count - k,
                  ws := c.ws.set w WPC.top }

/-- Configurations reachable by interleaved worker steps. -/
def Reach (q : dsp_thread_queue) : Config → Config → Prop :=
  Relation.ReflTransGen (Step q)

/-- The configuration at the start of a tick on an installed graph `q` with
`nw` workers: the counters are as `reset_queue` left them
(`reset_activation_counts`), `init_tick` has stored `total_node_count` into
`node_count` and seeded the empty FIFO with the initially runnable items, and
every worker is at the head of its loop. -/
def initConfig (q : dsp_thread_queue) (nw : Nat) : Config :=
  { counts := (q.reset_activation_counts).queue_items.map
      (fun it => it.activation_count)
  , fifo := q.initially_runnable_items
  , node_count := q.total_node_count
  , executed := []
  , ws := List.replicate nw WPC.top }

/-- The graph-builder contract for an installable DAG (spec section 6): the
node count matches, successor pointers stay inside the graph, each
`activation_limit` is the item's in-degree, and the initially runnable list
holds exactly the items of limit 0, once each. -/
structure GraphWF (q : dsp_thread_queue) : Prop where
  total_eq : q.total_node_count = numItems q
  succ_lt : ∀ v, v < numItems q → ∀ j ∈ (qitem q v).successors, j < numItems q
  limit_eq : ∀ v, v < numItems q →
    (qitem q v).activation_limit =
      ((List.range (numItems q)).map
        (fun p => (qitem q p).successors.count v)).sum
  initial_count : ∀ v, v < numItems q →
    q.initially_runnable_items.count v =
      (if (qitem q v).activation_limit = 0 then 1 else 0)
  initial_lt : ∀ x ∈ q.initially_runnable_items, x < numItems q

/-!
Accounting measures over a configuration, used by the tick invariant.
-/

/-- Chain length a worker has run but not yet subtracted from `node_count`. -/
def pendingOf : WPC → Nat
  | WPC.runJob _ k => k
  | WPC.decSucc _ _ _ k => k + 1
  | WPC.fsub k => k
  | _ => 0

/-- Does this worker privately hold a reference to item `v` (as the item it is
about to run, or in its `ptr` slot)? -/
def holdsNode (v : Nat) : WPC → Nat
  | WPC.runJob u _ => if u = v then 1 else 0
  | WPC.decSucc _ _ (some u) _ => if u = v then 1 else 0
  | _ => 0

/-- Is this worker inside `update_dependencies` of item `v`? -/
def actingOn (v : Nat) : WPC → Nat
  | WPC.decSucc u _ _ _ => if u = v then 1 else 0
  | _ => 0

/-- Decrements of item `v` still owed by this worker's current
`update_dependencies` iteration. -/
def wpcPD (v : Nat) : WPC → Nat
  | WPC.decSucc _ rest _ _ => rest.count v
  | _ => 0

/-- Sum of a worker measure over all workers. -/
def sumW (f : WPC → Nat) (ws : List WPC) : Nat :=
  (ws.map f).sum

/-- How often item `v`'s job has been invoked this tick. -/
def execC (c : Config) (v : Nat) : Nat :=
  c.executed.count v

/-- How often item `v` is currently published as ready: occurrences in the
FIFO plus private holds by workers. -/
def placedC (c : Config) (v : Nat) : Nat :=
  c.fifo.count v + sumW (holdsNode v) c.ws

/-- Number of workers inside `update_dependencies` of item `v`. -/
def actC (c : Config) (v : Nat) : Nat :=
  sumW (actingOn v) c.ws

/-- Decrements of item `v` still owed by items whose run has not begun. -/
def staticPD (q : dsp_thread_queue) (c : Config) (v : Nat) : Nat :=
  ((List.range (numItems q)).map
    (fun p => if c.executed.count p = 0 then (qitem q p).successors.count v
      else 0)).sum

/-- All decrements item `v` will still receive this tick. -/
def PD (q : dsp_thread_queue) (c : Config) (v : Nat) : Nat :=
  staticPD q c v + sumW (wpcPD v) c.ws

/-- Validity of a worker control state: every held item index is in range. -/
def WPCwf (q : dsp_thread_queue) : WPC → Prop
  | WPC.runJob v _ => v < numItems q
  | WPC.decSucc v rest first _ =>
      v < numItems q ∧ (∀ j ∈ rest, j < numItems q) ∧
      (∀ u, first = some u → u < numItems q)
  | _ => True

/-- The tick invariant.  It is preserved by every interleaved step and forces
the exactly-once discipline: each item is placed at most once, runs at most
once, its counter equals the decrements it still has to receive (or its limit
once it has run and been reset), and `node_count` accounts for all finished
and in-flight chain work. -/
structure Inv (q : dsp_thread_queue) (c : Config) : Prop where
  counts_len : c.counts.length = numItems q
  exec_lt : ∀ x ∈ c.executed, x < numItems q
  fifo_lt : ∀ x ∈ c.fifo, x < numItems q
  ws_wf : ∀ pc ∈ c.ws, WPCwf q pc
  acct : c.node_count + c.executed.length = numItems q + sumW pendingOf c.ws
  exec_le : ∀ v, execC c v ≤ 1
  act_le : ∀ v, actC c v ≤ execC c v
  placed_exec : ∀ v, placedC c v + execC c v ≤ 1
  ready_iff : ∀ v, v < numItems q →
    (PD q c v = 0 ↔ placedC c v + execC c v = 1)
  counts_eq : ∀ v, v < numItems q →
    c.counts.getD v 0 =
      (if execC c v = 1 ∧ actC c v = 0 then (qitem q v).activation_limit
       else PD q c v)

/-!
Small concrete graphs and states, used to exercise the theorems below on
closed inputs.
-/

/-- A two-item chain 0 → 1 built through the `dsp_thread_queue` interface. -/
def exampleChain2 : dsp_thread_queue :=
  ((dsp_thread_queue.empty.add_queue_item
      (dsp_thread_queue_item.make 0 [1] 0)).add_queue_item
      (dsp_thread_queue_item.make 1 [] 1)).add_initially_runnable 0

/-- A fork 0 → 1, 0 → 2 built through the `dsp_thread_queue` interface. -/
def exampleFork3 : dsp_thread_queue :=
  (((dsp_thread_queue.empty.add_queue_item
      (dsp_thread_queue_item.make 0 [1, 2] 0)).add_queue_item
      (dsp_thread_queue_item.make 1 [] 1)).add_queue_item
      (dsp_thread_queue_item.make 2 [] 1)).add_initially_runnable 0

/-- A single isolated item built through the `dsp_thread_queue` interface. -/
def exampleSingle : dsp_thread_queue :=
  (dsp_thread_queue.empty.add_queue_item
      (dsp_thread_queue_item.make 0 [] 0)).add_initially_runnable 0

/-!
List bookkeeping lemmas used throughout the development.
-/

theorem getD_set_self (l : List Nat) (i x : Nat) (h : i < l.length) :
    (l.set i x).getD i 0 = x := by
  simp [List.getD, List.getElem?_set_self, h]

theorem getD_set_ne (l : List Nat) (i j x : Nat) (h : i ≠ j) :
    (l.set i x).getD j 0 = l.getD j 0 := by
  simp [List.getD, List.getElem?_set_ne h]

theorem countN_cons (x j : Nat) (l : List Nat) :
    (j :: l).count x = l.count x + (if j = x then 1 else 0) := by
  simp [List.count_cons]

theorem countN_append (x : Nat) (l1 l2 : List Nat) :
    (l1 ++ l2).count x = l1.count x + l2.count x :=
  List.count_append x l1 l2

theorem sum_map_set {α : Type} (f : α → Nat) (ws : List α) (w : Nat) (a b : α)
    (h : ws[w]? = some a) :
    ((ws.set w b).map f).sum + f a = (ws.map f).sum + f b := by
  induction ws generalizing w with
  | nil => simp at h
  | cons hd tl ih =>
    cases w with
    | zero =>
      simp only [List.getElem?_cons_zero, Option.some.injEq] at h
      subst h
      simp only [List.set_cons_zero, List.map_cons, List.sum_cons]
      omega
    | succ w1 =>
      simp only [List.getElem?_cons_succ] at h
      have := ih w1 h
      simp only [List.set_cons_succ, List.map_cons, List.sum_cons]
      omega

theorem le_sum_map {α : Type} (f : α → Nat) (ws : List α) (a : α)
    (h : a ∈ ws) : f a ≤ (ws.map f).sum := by
  induction ws with
  | nil => cases h
  | cons hd tl ih =>
    rcases List.mem_cons.mp h with h1 | h1
    · subst h1
      simp only [List.map_cons, List.sum_cons]
      omega
    · have := ih h1
      simp only [List.map_cons, List.sum_cons]
      omega

theorem sum_map_congr {α : Type} (l : List α) (f g : α → Nat)
    (h : ∀ x ∈ l, f x = g x) : (l.map f).sum = (l.map g).sum := by
  induction l with
  | nil => rfl
  | cons hd tl ih =>
    simp only [List.map_cons, List.sum_cons]
    rw [h hd (List.mem_cons_self hd tl), ih (fun x hx => h x (List.mem_cons_of_mem hd hx))]

theorem sum_map_add {α : Type} (l : List α) (f g : α → Nat) :
    (l.map (fun x => f x + g x)).sum = (l.map f).sum + (l.map g).sum := by
  induction l with
  | nil => rfl
  | cons hd tl ih =>
    simp only [List.map_cons, List.sum_cons, ih]
    omega

theorem sum_map_eq_except {α : Type} [DecidableEq α] (l : List α) (v : α)
    (f g : α → Nat) (hv : v ∈ l) (hnd : l.Nodup)
    (hfg : ∀ p ∈ l, p ≠ v → f p = g p) :
    (l.map f).sum + g v = (l.map g).sum + f v := by
  induction l with
  | nil => cases hv
  | cons hd tl ih =>
    rcases List.mem_cons.mp hv with h1 | h1
    · subst h1
      have hnotm : v ∉ tl := (List.nodup_cons.mp hnd).1
      have : (tl.map f).sum = (tl.map g).sum := by
        apply sum_map_congr
        intro x hx
        exact hfg x (List.mem_cons_of_mem v hx) (fun hxv => hnotm (hxv ▸ hx))
      simp only [List.map_cons, List.sum_cons, this]
      omega
    · have hhd : hd ≠ v := by
        intro hh
        exact (List.nodup_cons.mp hnd).1 (hh ▸ h1)
      have := ih h1 (List.nodup_cons.mp hnd).2
        (fun x hx hxv => hfg x (List.mem_cons_of_mem hd hx) hxv)
      simp only [List.map_cons, List.sum_cons, hfg hd (List.mem_cons_self hd tl) hhd]
      omega

theorem sum_range_indicator (n x : Nat) :
    ((List.range n).map (fun v => if x = v then 1 else 0)).sum =
      (if x < n then 1 else 0) := by
  induction n with
  | zero => simp
  | succ m ih =>
    rw [List.range_succ]
    simp only [List.map_append, List.sum_append, ih, List.map_cons, List.map_nil,
      List.sum_cons, List.sum_nil]
    by_cases hx : x = m
    · subst hx; simp [Nat.lt_irrefl, Nat.lt_succ_self]
    · by_cases hlt : x < m
      · simp [hlt, hx, Nat.lt_succ_of_lt hlt]
      · have hns : ¬ x < m + 1 := by omega
        simp [hlt, hx, hns]

theorem length_eq_sum_counts (l : List Nat) (n : Nat) (h : ∀ x ∈ l, x < n) :
    l.length = ((List.range n).map (fun v => l.count v)).sum := by
  induction l with
  | nil => simp
  | cons hd tl ih =>
    have hhd : hd < n := h hd (List.mem_cons_self hd tl)
    have htl := ih (fun x hx => h x (List.mem_cons_of_mem hd hx))
    have hcnt : ∀ v : Nat, (hd :: tl).count v =
        tl.count v + (if hd = v then 1 else 0) := fun v => countN_cons v hd tl
    calc (hd :: tl).length = tl.length + 1 := by simp
    _ = ((List.range n).map (fun v => tl.count v)).sum +
          ((List.range n).map (fun v => if hd = v then 1 else 0)).sum := by
        rw [← htl, sum_range_indicator]
        simp [hhd]
    _ = ((List.range n).map (fun v => tl.count v + (if hd = v then 1 else 0))).sum := by
        rw [sum_map_add]
    _ = ((List.range n).map (fun v => (hd :: tl).count v)).sum := by
        apply sum_map_congr
        intro x _
        rw [hcnt x]

theorem sum_map_le_length (l : List Nat) (f : Nat → Nat)
    (h : ∀ x ∈ l, f x ≤ 1) : (l.map f).sum ≤ l.length := by
  induction l with
  | nil => simp
  | cons hd tl ih =>
    have := h hd (List.mem_cons_self hd tl)
    have := ih (fun x hx => h x (List.mem_cons_of_mem hd hx))
    simp only [List.map_cons, List.sum_cons, List.length_cons]
    omega

theorem sum_counts_all_one (f : Nat → Nat) :
    ∀ n : Nat, (∀ v, f v ≤ 1) → ((List.range n).map f).sum = n →
      ∀ v, v < n → f v = 1 := by
  intro n
  induction n with
  | zero => intro _ _ v hv; omega
  | succ m ih =>
    intro hle hsum v hv
    rw [List.range_succ] at hsum
    simp only [List.map_append, List.sum_append, List.map_cons, List.map_nil,
      List.sum_cons, List.sum_nil] at hsum
    have hbound : ((List.range m).map f).sum ≤ m := by
      apply le_trans (sum_map_le_length _ _ (fun x _ => hle x))
      simp
    have hfm : f m = 1 := by
      have := hle m
      omega
    have hrest : ((List.range m).map f).sum = m := by omega
    rcases Nat.lt_succ_iff_lt_or_eq.mp hv with h1 | h1
    · exact ih hle hrest v h1
    · subst h1; exact hfm

/-!
Behaviour of the sequential item operations (`dec_ref_count`,
`update_dependencies`, `run`, `run_next_item`).
-/

theorem setCount_counts (s : SState) (v x : Nat) :
    (setCount s v x).counts = s.counts.set v x := rfl

theorem dec_ref_count_eq (s : SState) (j : Nat) :
    dec_ref_count s j =
      { s with counts := s.counts.set j (countOf s j - 1),
               fifo := s.fifo ++ (if countOf s j = 1 then [j] else []) } := by
  unfold dec_ref_count
  split
  · simp [fifoPush, setCount, *]
  · simp [setCount, *]

theorem dec_ref_count_ptr_none (s : SState) (j : Nat) :
    dec_ref_count_ptr s none j =
      ({ s with counts := s.counts.set j (countOf s j - 1) },
        if countOf s j = 1 then some j else none) := by
  by_cases h : countOf s j = 1
  · simp [dec_ref_count_ptr, setCount, h]
  · simp [dec_ref_count_ptr, setCount, h]

/-- Component view of the second `update_dependencies` loop. -/
theorem upd_loop2_spec (l : List Nat) (s : SState) (hnd : l.Nodup)
    (hb : ∀ j ∈ l, j < s.counts.length) :
    (∀ j ∈ l, countOf (upd_loop2 s l) j = countOf s j - 1) ∧
    (∀ j, j ∉ l → countOf (upd_loop2 s l) j = countOf s j) ∧
    (upd_loop2 s l).counts.length = s.counts.length ∧
    (upd_loop2 s l).fifo = s.fifo ++ l.filter (fun j => countOf s j == 1) ∧
    (upd_loop2 s l).node_count = s.node_count ∧
    (upd_loop2 s l).executed = s.executed := by
  induction l generalizing s with
  | nil => simp [upd_loop2]
  | cons j rest ih =>
    have hjlen : j < s.counts.length := hb j (List.mem_cons_self j rest)
    have hnotm : j ∉ rest := (List.nodup_cons.mp hnd).1
    have hndr : rest.Nodup := (List.nodup_cons.mp hnd).2
    set s1 := dec_ref_count s j with hs1
    have hc1 : s1.counts = s.counts.set j (countOf s j - 1) := by
      rw [hs1, dec_ref_count_eq]
    have hf1 : s1.fifo = s.fifo ++ (if countOf s j = 1 then [j] else []) := by
      rw [hs1, dec_ref_count_eq]
    have hn1 : s1.node_count = s.node_count := by rw [hs1, dec_ref_count_eq]
    have he1 : s1.executed = s.executed := by rw [hs1, dec_ref_count_eq]
    have hlen1 : s1.counts.length = s.counts.length := by
      rw [hc1, List.length_set]
    have hcj : countOf s1 j = countOf s j - 1 := by
      show s1.counts.getD j 0 = _
      rw [hc1]
      exact getD_set_self _ _ _ hjlen
    have hcne : ∀ x, x ≠ j → countOf s1 x = countOf s x := by
      intro x hx
      show s1.counts.getD x 0 = _
      rw [hc1]
      exact getD_set_ne _ _ _ _ (fun hh => hx hh.symm)
    have hbr : ∀ x ∈ rest, x < s1.counts.length := by
      intro x hx; rw [hlen1]; exact hb x (List.mem_cons_of_mem j hx)
    obtain ⟨ih1, ih2, ih3, ih4, ih5, ih6⟩ := ih s1 hndr hbr
    have hrestsame : ∀ x ∈ rest, countOf s1 x = countOf s x := by
      intro x hx
      exact hcne x (fun hh => hnotm (hh ▸ hx))
    refine ⟨?_, ?_, ?_, ?_, ?_, ?_⟩
    · intro x hx
      rcases List.mem_cons.mp hx with h1 | h1
      · subst h1
        show countOf (upd_loop2 s1 rest) x = _
        rw [ih2 x hnotm, hcj]
      · show countOf (upd_loop2 s1 rest) x = _
        rw [ih1 x h1, hrestsame x h1]
    · intro x hx
      have hxj : x ≠ j := fun hh => hx (hh ▸ List.mem_cons_self j rest)
      have hxr : x ∉ rest := fun hh => hx (List.mem_cons_of_mem j hh)
      show countOf (upd_loop2 s1 rest) x = _
      rw [ih2 x hxr, hcne x hxj]
    · show (upd_loop2 s1 rest).counts.length = _
      rw [ih3, hlen1]
    · show (upd_loop2 s1 rest).fifo = _
      rw [ih4, hf1]
      have hfil : rest.filter (fun x => countOf s1 x == 1) =
          rest.filter (fun x => countOf s x == 1) := by
        apply List.filter_congr
        intro x hx
        rw [hrestsame x hx]
      rw [hfil, List.filter_cons]
      by_cases hj1 : countOf s j = 1
      · simp [hj1]
      · simp [hj1]
    · show (upd_loop2 s1 rest).node_count = _
      rw [ih5, hn1]
    · show (upd_loop2 s1 rest).executed = _
      rw [ih6, he1]

/-- First `update_dependencies` loop when no successor in the list is about to
become ready. -/
theorem upd_loop1_none (l : List Nat) (s : SState) (hnd : l.Nodup)
    (hb : ∀ j ∈ l, j < s.counts.length)
    (hnone : ∀ j ∈ l, countOf s j ≠ 1) :
    (upd_loop1 s l).2.1 = none ∧ (upd_loop1 s l).2.2 = [] ∧
    (∀ j ∈ l, countOf (upd_loop1 s l).1 j = countOf s j - 1) ∧
    (∀ j, j ∉ l → countOf (upd_loop1 s l).1 j = countOf s j) ∧
    (upd_loop1 s l).1.counts.length = s.counts.length ∧
    (upd_loop1 s l).1.fifo = s.fifo ∧
    (upd_loop1 s l).1.node_count = s.node_count ∧
    (upd_loop1 s l).1.executed = s.executed := by
  induction l generalizing s with
  | nil => simp [upd_loop1]
  | cons j rest ih =>
    have hjlen : j < s.counts.length := hb j (List.mem_cons_self j rest)
    have hj1 : countOf s j ≠ 1 := hnone j (List.mem_cons_self j rest)
    have hjr : j ∉ rest := (List.nodup_cons.mp hnd).1
    set s1 : SState := { s with counts := s.counts.set j (countOf s j - 1) }
      with hs1
    have hstep : upd_loop1 s (j :: rest) = upd_loop1 s1 rest := by
      show (match dec_ref_count_ptr s none j with
        | (s2, some p) => (s2, some p, rest)
        | (s2, none) => upd_loop1 s2 rest) = _
      rw [dec_ref_count_ptr_none]
      simp [hj1]
    have hlen1 : s1.counts.length = s.counts.length := by
      rw [hs1]; exact List.length_set _ _ _
    have hcj : countOf s1 j = countOf s j - 1 := by
      show s1.counts.getD j 0 = _
      rw [hs1]
      exact getD_set_self _ _ _ hjlen
    have hcne : ∀ x, x ≠ j → countOf s1 x = countOf s x := by
      intro x hx
      show s1.counts.getD x 0 = _
      rw [hs1]
      exact getD_set_ne _ _ _ _ (fun hh => hx hh.symm)
    obtain ⟨ih1, ih2, ih3, ih4, ih5, ih6, ih7, ih8⟩ := ih s1
      (List.nodup_cons.mp hnd).2
      (fun x hx => by rw [hlen1]; exact hb x (List.mem_cons_of_mem j hx))
      (fun x hx => by
        have hxj : x ≠ j := fun hh => hjr (hh ▸ hx)
        rw [hcne x hxj]
        exact hnone x (List.mem_cons_of_mem j hx))
    rw [hstep]
    refine ⟨ih1, ih2, ?_, ?_, ?_, ih6, ih7, ih8⟩
    · intro x hx
      rcases List.mem_cons.mp hx with h1 | h1
      · subst h1
        rw [ih4 x hjr, hcj]
      · rw [ih3 x h1, hcne x (fun hh => hjr (hh ▸ h1))]
    · intro x hx
      have hxj : x ≠ j := fun hh => hx (hh ▸ List.mem_cons_self j rest)
      have hxr : x ∉ rest := fun hh => hx (List.mem_cons_of_mem j hh)
      rw [ih4 x hxr, hcne x hxj]
    · rw [ih5, hlen1]

/-- First `update_dependencies` loop when the list splits at the first
successor `p` that becomes ready. -/
theorem upd_loop1_found (l1 : List Nat) (p : Nat) (l2 : List Nat) (s : SState)
    (hnd : (l1 ++ p :: l2).Nodup)
    (hb : ∀ j ∈ l1 ++ p :: l2, j < s.counts.length)
    (h1 : ∀ j ∈ l1, countOf s j ≠ 1) (hp : countOf s p = 1) :
    (upd_loop1 s (l1 ++ p :: l2)).2.1 = some p ∧
    (upd_loop1 s (l1 ++ p :: l2)).2.2 = l2 ∧
    (∀ j ∈ l1 ++ [p],
      countOf (upd_loop1 s (l1 ++ p :: l2)).1 j = countOf s j - 1) ∧
    (∀ j, j ∉ l1 ++ [p] →
      countOf (upd_loop1 s (l1 ++ p :: l2)).1 j = countOf s j) ∧
    (upd_loop1 s (l1 ++ p :: l2)).1.counts.length = s.counts.length ∧
    (upd_loop1 s (l1 ++ p :: l2)).1.fifo = s.fifo ∧
    (upd_loop1 s (l1 ++ p :: l2)).1.node_count = s.node_count ∧
    (upd_loop1 s (l1 ++ p :: l2)).1.executed = s.executed := by
  induction l1 generalizing s with
  | nil =>
    have hplen : p < s.counts.length := hb p (by simp)
    have hstep : upd_loop1 s (p :: l2) =
        ({ s with counts := s.counts.set p (countOf s p - 1) }, some p, l2) := by
      show (match dec_ref_count_ptr s none p with
        | (s2, some p1) => (s2, some p1, l2)
        | (s2, none) => upd_loop1 s2 l2) = _
      rw [dec_ref_count_ptr_none]
      simp [hp]
    simp only [List.nil_append] at *
    rw [hstep]
    refine ⟨rfl, rfl, ?_, ?_, ?_, rfl, rfl, rfl⟩
    · intro j hj
      simp only [List.mem_singleton] at hj
      subst hj
      exact getD_set_self _ _ _ hplen
    · intro j hj
      simp only [List.mem_singleton] at hj
      exact getD_set_ne _ _ _ _ (fun hh => hj hh.symm)
    · exact List.length_set _ _ _
  | cons j rest ih =>
    have hjlen : j < s.counts.length := hb j (by simp)
    have hj1 : countOf s j ≠ 1 := h1 j (List.mem_cons_self j rest)
    have hndc : (j :: (rest ++ p :: l2)).Nodup := by
      rw [← List.cons_append]
      exact hnd
    have hjnotin : j ∉ rest ++ p :: l2 := (List.nodup_cons.mp hndc).1
    set s1 : SState := { s with counts := s.counts.set j (countOf s j - 1) }
      with hs1
    have hstep : upd_loop1 s ((j :: rest) ++ p :: l2) =
        upd_loop1 s1 (rest ++ p :: l2) := by
      show (match dec_ref_count_ptr s none j with
        | (s2, some p1) => (s2, some p1, rest ++ p :: l2)
        | (s2, none) => upd_loop1 s2 (rest ++ p :: l2)) = _
      rw [dec_ref_count_ptr_none]
      simp [hj1]
    have hlen1 : s1.counts.length = s.counts.length := by
      rw [hs1]; exact List.length_set _ _ _
    have hcj : countOf s1 j = countOf s j - 1 := by
      show s1.counts.getD j 0 = _
      rw [hs1]
      exact getD_set_self _ _ _ hjlen
    have hcne : ∀ x, x ≠ j → countOf s1 x = countOf s x := by
      intro x hx
      show s1.counts.getD x 0 = _
      rw [hs1]
      exact getD_set_ne _ _ _ _ (fun hh => hx hh.symm)
    have hpj : p ≠ j := by
      intro hh
      exact hjnotin (hh ▸ (by simp : p ∈ rest ++ p :: l2))
    obtain ⟨ih1, ih2, ih3, ih4, ih5, ih6, ih7, ih8⟩ := ih s1
      (List.nodup_cons.mp hndc).2
      (fun x hx => by
        rw [hlen1]
        exact hb x (List.mem_cons_of_mem j hx))
      (fun x hx => by
        have hxj : x ≠ j := fun hh =>
          hjnotin (hh ▸ (List.mem_append_left _ hx))
        rw [hcne x hxj]
        exact h1 x (List.mem_cons_of_mem j hx))
      (by rw [hcne p hpj]; exact hp)
    rw [hstep]
    refine ⟨ih1, ih2, ?_, ?_, ?_, ih6, ih7, ih8⟩
    · intro x hx
      rcases List.mem_append.mp hx with h2 | h2
      · rcases List.mem_cons.mp h2 with h3 | h3
        · subst h3
          have hxn : x ∉ rest ++ [p] := by
            intro hc
            rcases List.mem_append.mp hc with h4 | h4
            · exact hjnotin (List.mem_append_left _ h4)
            · simp only [List.mem_singleton] at h4
              exact hpj h4.symm
          rw [ih4 x hxn, hcj]
        · have : x ∈ rest ++ [p] := List.mem_append_left _ h3
          rw [ih3 x this]
          rw [hcne x (fun hh => hjnotin (hh ▸ List.mem_append_left _ h3))]
      · simp only [List.mem_singleton] at h2
        subst h2
        have hxm : x ∈ rest ++ [x] := List.mem_append_right _ (by simp)
        rw [ih3 x hxm, hcne x hpj]
    · intro x hx
      have hxj : x ≠ j := by
        intro hh
        exact hx (hh ▸ (by simp : j ∈ (j :: rest) ++ [p]))
      have hxn : x ∉ rest ++ [p] := by
        intro hc
        apply hx
        rcases List.mem_append.mp hc with h4 | h4
        · exact List.mem_append_left _ (List.mem_cons_of_mem j h4)
        · exact List.mem_append_right _ h4
      rw [ih4 x hxn, hcne x hxj]
    · rw [ih5, hlen1]

/-- Full behaviour of `update_dependencies` on a duplicate-free successor
list: every successor is decremented exactly once; among the successors that
become ready (previous counter value 1), the first is returned and the rest
are enqueued into the FIFO in list order. -/
theorem update_dependencies_spec (q : dsp_thread_queue) (s : SState) (v : Nat)
    (hnd : (qitem q v).successors.Nodup)
    (hb : ∀ j ∈ (qitem q v).successors, j < s.counts.length) :
    (∀ j ∈ (qitem q v).successors,
      countOf (update_dependencies q s v).1 j = countOf s j - 1) ∧
    (∀ j, j ∉ (qitem q v).successors →
      countOf (update_dependencies q s v).1 j = countOf s j) ∧
    (update_dependencies q s v).1.counts.length = s.counts.length ∧
    (update_dependencies q s v).2 =
      ((qitem q v).successors.filter (fun j => countOf s j == 1)).head? ∧
    (update_dependencies q s v).1.fifo =
      s.fifo ++ ((qitem q v).successors.filter (fun j => countOf s j == 1)).tail ∧
    (update_dependencies q s v).1.node_count = s.node_count ∧
    (update_dependencies q s v).1.executed = s.executed := by
  set l := (qitem q v).successors with hl
  rcases hready : l.filter (fun j => countOf s j == 1) with _ | ⟨p, tl⟩
  · -- no successor becomes ready
    have hnone : ∀ j ∈ l, countOf s j ≠ 1 := by
      intro j hj hc
      have : j ∈ l.filter (fun j => countOf s j == 1) :=
        List.mem_filter.mpr ⟨hj, by simp [hc]⟩
      rw [hready] at this
      cases this
    obtain ⟨w1, w2, w3, w4, w5, w6, w7, w8⟩ := upd_loop1_none l s hnd hb hnone
    have hupd : update_dependencies q s v = ((upd_loop1 s l).1, none) := by
      unfold update_dependencies
      rw [← hl]
      rcases hsplit : upd_loop1 s l with ⟨s1, optp, rest⟩
      rw [hsplit] at w1
      simp at w1
      subst w1
      rfl
    rw [hupd]
    exact ⟨w3, w4, w5, by simp, by simpa using w6, w7, w8⟩
  · -- the first ready successor is p
    obtain ⟨l1, l2, hsplit, hl1, hp, hl2⟩ := List.filter_eq_cons_iff.mp hready
    have hp1 : countOf s p = 1 := by simpa using hp
    have hl1ne : ∀ j ∈ l1, countOf s j ≠ 1 := by
      intro j hj hc
      have := hl1 j hj
      simp [hc] at this
    rw [hsplit] at hnd hb
    rw [hsplit]
    obtain ⟨w1, w2, w3, w4, w5, w6, w7, w8⟩ :=
      upd_loop1_found l1 p l2 s hnd hb hl1ne hp1
    set s1 := (upd_loop1 s (l1 ++ p :: l2)).1 with hs1
    have hndl2 : l2.Nodup := by
      have h2 := hnd
      rw [List.nodup_append] at h2
      exact (List.nodup_cons.mp h2.2.1).2
    have hdisj : ∀ x ∈ l2, x ∉ l1 ++ [p] := by
      intro x hx hc
      have h2 := hnd
      rw [List.nodup_append] at h2
      rcases List.mem_append.mp hc with h3 | h3
      · exact h2.2.2 h3 (List.mem_cons_of_mem p hx)
      · simp only [List.mem_singleton] at h3
        subst h3
        exact (List.nodup_cons.mp h2.2.1).1 hx
    have hsame : ∀ x ∈ l2, countOf s1 x = countOf s x := by
      intro x hx
      exact w4 x (hdisj x hx)
    have hbl2 : ∀ x ∈ l2, x < s1.counts.length := by
      intro x hx
      rw [w5]
      exact hb x (List.mem_append_right _ (List.mem_cons_of_mem p hx))
    obtain ⟨u1, u2, u3, u4, u5, u6⟩ := upd_loop2_spec l2 s1 hndl2 hbl2
    have hupd : update_dependencies q s v = (upd_loop2 s1 l2, some p) := by
      unfold update_dependencies
      rw [← hl, hsplit]
      rcases hsplit2 : upd_loop1 s (l1 ++ p :: l2) with ⟨s2, optp, rest⟩
      rw [hsplit2] at w1 w2
      simp at w1 w2
      rw [hs1, hsplit2]
      subst w1
      subst w2
      rfl
    rw [hupd]
    have hfl2 : l2.filter (fun j => countOf s1 j == 1) = tl := by
      rw [← hl2]
      apply List.filter_congr
      intro x hx
      rw [hsame x hx]
    refine ⟨?_, ?_, ?_, by simp, ?_, ?_, ?_⟩
    · intro x hx
      rcases List.mem_append.mp hx with h3 | h3
      · have hxin : x ∈ l1 ++ [p] := List.mem_append_left _ h3
        rw [u2 x (fun hc => hdisj x hc hxin), w3 x hxin]
      · rcases List.mem_cons.mp h3 with h4 | h4
        · subst h4
          have hxin : x ∈ l1 ++ [x] := List.mem_append_right _ (by simp)
          rw [u2 x (fun hc => hdisj x hc hxin), w3 x hxin]
        · rw [u1 x h4, hsame x h4]
    · intro x hx
      have hx1 : x ∉ l1 ++ [p] := by
        intro hc
        apply hx
        rcases List.mem_append.mp hc with h3 | h3
        · exact List.mem_append_left _ h3
        · simp only [List.mem_singleton] at h3
          subst h3
          exact List.mem_append_right _ (by simp)
      have hx2 : x ∉ l2 := fun hc =>
        hx (List.mem_append_right _ (List.mem_cons_of_mem p hc))
      rw [u2 x hx2, w4 x hx1]
    · rw [u3, w5]
    · rw [u4, w6, hfl2]
      simp
    · rw [u5, w7]
    · rw [u6, w8]

/-- The second `update_dependencies` loop never touches the trace or
`node_count`. -/
theorem upd_loop2_frame (l : List Nat) (s : SState) :
    (upd_loop2 s l).node_count = s.node_count ∧
    (upd_loop2 s l).executed = s.executed := by
  induction l generalizing s with
  | nil => exact ⟨rfl, rfl⟩
  | cons j rest ih =>
    have hstep : upd_loop2 s (j :: rest) = upd_loop2 (dec_ref_count s j) rest :=
      rfl
    rw [hstep]
    obtain ⟨ih1, ih2⟩ := ih (dec_ref_count s j)
    rw [ih1, ih2, dec_ref_count_eq]
    exact ⟨rfl, rfl⟩

/-- The first `update_dependencies` loop never touches the trace or
`node_count`. -/
theorem upd_loop1_frame (l : List Nat) (s : SState) :
    (upd_loop1 s l).1.node_count = s.node_count ∧
    (upd_loop1 s l).1.executed = s.executed := by
  induction l generalizing s with
  | nil => exact ⟨rfl, rfl⟩
  | cons j rest ih =>
    have hstep : upd_loop1 s (j :: rest) =
        match dec_ref_count_ptr s none j with
        | (s1, some p) => (s1, some p, rest)
        | (s1, none) => upd_loop1 s1 rest := rfl
    rw [hstep, dec_ref_count_ptr_none]
    by_cases h : countOf s j = 1
    · simp only [h, if_pos rfl]
      exact ⟨rfl, rfl⟩
    · simp only [if_neg h]
      exact ih _

/-- `update_dependencies` never touches the trace or `node_count`. -/
theorem update_dependencies_frame (q : dsp_thread_queue) (s : SState)
    (v : Nat) :
    (update_dependencies q s v).1.node_count = s.node_count ∧
    (update_dependencies q s v).1.executed = s.executed := by
  unfold update_dependencies
  rcases hsplit : upd_loop1 s (qitem q v).successors with ⟨s1, optp, rest⟩
  obtain ⟨f1, f2⟩ := upd_loop1_frame (qitem q v).successors s
  rw [hsplit] at f1 f2
  cases optp with
  | none => exact ⟨f1, f2⟩
  | some p =>
    obtain ⟨g1, g2⟩ := upd_loop2_frame rest s1
    exact ⟨g1.trans f1, g2.trans f2⟩

/-- `run` appends exactly its own job invocation to the trace and leaves
`node_count` alone. -/
theorem item_run_frame (q : dsp_thread_queue) (s : SState) (v : Nat) :
    (item_run q s v).1.executed = s.executed ++ [v] ∧
    (item_run q s v).1.node_count = s.node_count := by
  have hdef : item_run q s v =
      (match update_dependencies q { s with executed := s.executed ++ [v] } v
        with
       | (s1, next) => (setCount s1 v (qitem q v).activation_limit, next)) :=
    rfl
  rw [hdef]
  rcases hsplit : update_dependencies q { s with executed := s.executed ++ [v] }
    v with ⟨s1, next⟩
  obtain ⟨f1, f2⟩ :=
    update_dependencies_frame q { s with executed := s.executed ++ [v] } v
  rw [hsplit] at f1 f2
  constructor
  · show (setCount s1 v (qitem q v).activation_limit).executed = _
    simpa [setCount] using f2
  · show (setCount s1 v (qitem q v).activation_limit).node_count = _
    simpa [setCount] using f1

/-- Unfolding equations of the do-while chain. -/
theorem run_loop_none (q : dsp_thread_queue) (fuel : Nat) (s : SState)
    (v k : Nat) (s1 : SState) (h : item_run q s v = (s1, none)) :
    run_loop q fuel s v k = (s1, k + 1, true) := by
  cases fuel with
  | zero =>
    unfold run_loop
    rw [h]
  | succ f1 =>
    unfold run_loop
    rw [h]

theorem run_loop_some_zero (q : dsp_thread_queue) (s : SState) (v k : Nat)
    (s1 : SState) (u : Nat) (h : item_run q s v = (s1, some u)) :
    run_loop q 0 s v k = (s1, k + 1, false) := by
  unfold run_loop
  rw [h]

theorem run_loop_some_succ (q : dsp_thread_queue) (fuel1 : Nat) (s : SState)
    (v k : Nat) (s1 : SState) (u : Nat) (h : item_run q s v = (s1, some u)) :
    run_loop q (fuel1 + 1) s v k = run_loop q fuel1 s1 u (k + 1) := by
  conv_lhs => unfold run_loop
  rw [h]

/-- The do-while chain of `run_next_item`: it runs a nonempty batch of jobs
starting with the dequeued item, counts exactly that batch in `consumed`, and
does not touch `node_count`. -/
theorem run_loop_spec (q : dsp_thread_queue) :
    ∀ (fuel : Nat) (s : SState) (v k : Nat),
      ∃ tr : List Nat,
        (run_loop q fuel s v k).1.executed = s.executed ++ v :: tr ∧
        (run_loop q fuel s v k).2.1 = k + (v :: tr).length ∧
        (run_loop q fuel s v k).1.node_count = s.node_count := by
  intro fuel
  induction fuel with
  | zero =>
    intro s v k
    obtain ⟨e1, e2⟩ := item_run_frame q s v
    rcases hsplit : item_run q s v with ⟨s1, next⟩
    simp only [hsplit] at e1 e2
    cases next with
    | none =>
      rw [run_loop_none q 0 s v k s1 hsplit]
      exact ⟨[], e1, rfl, e2⟩
    | some u =>
      rw [run_loop_some_zero q s v k s1 u hsplit]
      exact ⟨[], e1, rfl, e2⟩
  | succ fuel1 ih =>
    intro s v k
    obtain ⟨e1, e2⟩ := item_run_frame q s v
    rcases hsplit : item_run q s v with ⟨s1, next⟩
    simp only [hsplit] at e1 e2
    cases next with
    | none =>
      rw [run_loop_none q (fuel1 + 1) s v k s1 hsplit]
      exact ⟨[], e1, rfl, e2⟩
    | some u =>
      obtain ⟨tr1, t1, t2, t3⟩ := ih s1 u (k + 1)
      rw [run_loop_some_succ q fuel1 s v k s1 u hsplit]
      refine ⟨u :: tr1, ?_, ?_, ?_⟩
      · rw [t1, e1]
        simp
      · rw [t2]
        simp
        omega
      · rw [t3, e2]

theorem upd_loop2_len (l : List Nat) (s : SState) :
    (upd_loop2 s l).counts.length = s.counts.length := by
  induction l generalizing s with
  | nil => rfl
  | cons j rest ih =>
    have hstep : upd_loop2 s (j :: rest) = upd_loop2 (dec_ref_count s j) rest :=
      rfl
    rw [hstep, ih, dec_ref_count_eq]
    exact List.length_set _ _ _

theorem upd_loop1_len (l : List Nat) (s : SState) :
    (upd_loop1 s l).1.counts.length = s.counts.length := by
  induction l generalizing s with
  | nil => rfl
  | cons j rest ih =>
    have hstep : upd_loop1 s (j :: rest) =
        match dec_ref_count_ptr s none j with
        | (s1, some p) => (s1, some p, rest)
        | (s1, none) => upd_loop1 s1 rest := rfl
    rw [hstep, dec_ref_count_ptr_none]
    by_cases h : countOf s j = 1
    · simp only [h, if_pos rfl]
      exact List.length_set _ _ _
    · simp only [if_neg h]
      rw [ih]
      exact List.length_set _ _ _

theorem update_dependencies_len (q : dsp_thread_queue) (s : SState) (v : Nat) :
    (update_dependencies q s v).1.counts.length = s.counts.length := by
  unfold update_dependencies
  rcases hsplit : upd_loop1 s (qitem q v).successors with ⟨s1, optp, rest⟩
  have f1 := upd_loop1_len (qitem q v).successors s
  rw [hsplit] at f1
  cases optp with
  | none => exact f1
  | some p => exact (upd_loop2_len rest s1).trans f1

/-!
Claim theorems.
-/

/-- C2, counterexample: the `dsp_thread_queue_item` constructor does NOT
initialise `activation_count` to `activation_limit`; with limit 5 the
constructed item's count is 0, not 5. -/
theorem C2_cex :
    ¬ (dsp_thread_queue_item.make 3 [] 5).activation_count = 5 := by
  decide

/-- C2, amended: the constructor initialises `activation_count` to 0; the
count only becomes `activation_limit` when `reset_activation_count` runs at
graph-install time. -/
theorem C2_ctor_count_zero (job : Nat) (succs : List Nat) (limit : Nat) :
    (dsp_thread_queue_item.make job succs limit).activation_count = 0 ∧
    ((dsp_thread_queue_item.make job succs limit).reset_activation_count).activation_count
      = limit :=
  ⟨rfl, rfl⟩

/-- C3, counterexample: `reset_activation_count`'s internal assertion
`assert(activation_count == 0)` DOES trip on an item left in mid-state
(here `activation_count = 1`). -/
theorem C3_cex :
    ¬ dsp_thread_queue_item.reset_activation_count_assert
        { activation_count := 1, job := 0, successors := [],
          activation_limit := 2 } := by
  intro h
  exact Nat.one_ne_zero h

/-- C3, amended: `reset_activation_count` stores `activation_limit` into
`activation_count`, and its internal assertion holds exactly when the count is
already 0 (true for freshly constructed items, the install-time situation the
constructor's zero-initialisation arranges; false for a mid-state item). -/
theorem C3_reset_stores_limit (it : dsp_thread_queue_item) :
    (it.reset_activation_count).activation_count = it.activation_limit ∧
    (dsp_thread_queue_item.reset_activation_count_assert it ↔
      it.activation_count = 0) :=
  ⟨rfl, Iff.rfl⟩

/-- C3, witness for the amended theorem at a mid-state item. -/
theorem C3_witness :
    ({ activation_count := 1, job := 0, successors := [],
       activation_limit := 2 : dsp_thread_queue_item
     }.reset_activation_count).activation_count = 2 :=
  (C3_reset_stores_limit
    { activation_count := 1, job := 0, successors := [],
      activation_limit := 2 }).1

/-- C5: immediately after `run` returns, the item's own `activation_count`
equals its `activation_limit` (the self-reset before returning). -/
theorem C5_run_resets_own_count (q : dsp_thread_queue) (s : SState) (v : Nat)
    (hv : v < s.counts.length) :
    countOf (item_run q s v).1 v = (qitem q v).activation_limit := by
  have hdef : item_run q s v =
      (match update_dependencies q { s with executed := s.executed ++ [v] } v
        with
       | (s1, next) => (setCount s1 v (qitem q v).activation_limit, next)) :=
    rfl
  rw [hdef]
  rcases hsplit : update_dependencies q { s with executed := s.executed ++ [v] }
    v with ⟨s1, next⟩
  have hlen := update_dependencies_len q
    { s with executed := s.executed ++ [v] } v
  rw [hsplit] at hlen
  show (setCount s1 v (qitem q v).activation_limit).counts.getD v 0 = _
  rw [setCount_counts]
  exact getD_set_self _ _ _ (by rw [hlen]; exact hv)

/-- C5, witness on the two-item chain. -/
theorem C5_witness :
    countOf (item_run exampleChain2
      { counts := [0, 1], fifo := [], node_count := 2, executed := [] } 0).1 0 =
      (qitem exampleChain2 0).activation_limit :=
  C5_run_resets_own_count exampleChain2
    { counts := [0, 1], fifo := [], node_count := 2, executed := [] } 0
    (by decide)

/-- C4: `run` on an item satisfying the `activation_count == 0` precondition
decrements every successor exactly once (in list order); the first successor
whose previous counter value was 1 is returned for direct chain execution and
every further newly ready successor is enqueued into the FIFO in order; `run`
returns none exactly when no successor became ready. -/
theorem C4_run_updates_dependencies (q : dsp_thread_queue) (s : SState)
    (v : Nat) (_hpre : item_run_assert s v)
    (hnd : (qitem q v).successors.Nodup)
    (hself : v ∉ (qitem q v).successors)
    (hb : ∀ j ∈ (qitem q v).successors, j < s.counts.length) :
    (∀ j ∈ (qitem q v).successors,
      countOf (item_run q s v).1 j = countOf s j - 1) ∧
    (item_run q s v).2 =
      ((qitem q v).successors.filter (fun j => countOf s j == 1)).head? ∧
    (item_run q s v).1.fifo =
      s.fifo ++
        ((qitem q v).successors.filter (fun j => countOf s j == 1)).tail ∧
    ((item_run q s v).2 = none ↔
      (qitem q v).successors.filter (fun j => countOf s j == 1) = []) := by
  have hdef : item_run q s v =
      (match update_dependencies q { s with executed := s.executed ++ [v] } v
        with
       | (s1, next) => (setCount s1 v (qitem q v).activation_limit, next)) :=
    rfl
  obtain ⟨d1, d2, d3, d4, d5, d6, d7⟩ := update_dependencies_spec q
    { s with executed := s.executed ++ [v] } v hnd hb
  rw [hdef]
  rcases hsplit : update_dependencies q { s with executed := s.executed ++ [v] }
    v with ⟨s1, next⟩
  rw [hsplit] at d1 d2 d3 d4 d5 d6 d7
  refine ⟨?_, ?_, ?_, ?_⟩
  · intro j hj
    have hjv : j ≠ v := fun hh => hself (hh ▸ hj)
    show (setCount s1 v (qitem q v).activation_limit).counts.getD j 0 = _
    rw [setCount_counts, getD_set_ne _ _ _ _ (fun hh => hjv hh.symm)]
    exact d1 j hj
  · exact d4
  · exact d5
  · rw [d4]
    exact List.head?_eq_none_iff

/-- C4, witness on the fork 0 → 1, 0 → 2 where successor 1 becomes ready and
successor 2 does not: `run` returns 1 directly and enqueues nothing. -/
theorem C4_witness :
    (item_run exampleFork3
      { counts := [0, 1, 2], fifo := [], node_count := 3, executed := [] }
      0).2 = some 1 :=
  ((C4_run_updates_dependencies exampleFork3
      { counts := [0, 1, 2], fifo := [], node_count := 3, executed := [] } 0
      rfl (by decide) (by decide) (by decide)).2.1).trans (by decide)

/-- C6: `init_tick` returns false exactly when no queue is installed or the
installed queue has zero nodes, leaving the interpreter unchanged; otherwise
it stores the queue's total node count into `node_count`, appends the
initially runnable items to the FIFO in graph order, and returns true. -/
theorem C6_init_tick (i : dsp_queue_interpreter) :
    ((i.init_tick).2 = false ↔
      (i.queue = none ∨
        ∃ q, i.queue = some q ∧ q.get_total_node_count = 0)) ∧
    ((i.init_tick).2 = false → (i.init_tick).1 = i) ∧
    (∀ q, i.queue = some q → q.get_total_node_count ≠ 0 →
      (i.init_tick).2 = true ∧
      (i.init_tick).1.node_count = q.get_total_node_count ∧
      (i.init_tick).1.fifo = i.fifo ++ q.initially_runnable_items ∧
      (i.init_tick).1.queue = i.queue ∧
      (i.init_tick).1.thread_count = i.thread_count ∧
      (i.init_tick).1.used_helper_threads = i.used_helper_threads) := by
  rcases hq : i.queue with _ | q
  · have h1 : i.init_tick = (i, false) := by
      unfold dsp_queue_interpreter.init_tick
      rw [hq]
    rw [h1]
    refine ⟨⟨fun _ => Or.inl rfl, fun _ => rfl⟩, fun _ => rfl, ?_⟩
    intro q2 hq2
    cases hq2
  · by_cases h0 : q.get_total_node_count = 0
    · have h1 : i.init_tick = (i, false) := by
        unfold dsp_queue_interpreter.init_tick
        rw [hq]
        simp [h0]
      rw [h1]
      refine ⟨⟨fun _ => Or.inr ⟨q, rfl, h0⟩, fun _ => rfl⟩, fun _ => rfl, ?_⟩
      intro q2 hq2 hne
      injection hq2 with hq2
      subst hq2
      exact absurd h0 hne
    · have h1 : i.init_tick =
          ({ i with node_count := q.get_total_node_count,
                    fifo := i.fifo ++ q.initially_runnable_items }, true) := by
        unfold dsp_queue_interpreter.init_tick
        rw [hq]
        simp [h0]
      rw [h1]
      refine ⟨⟨fun hfalse => ?_, fun hor => ?_⟩, fun hfalse => ?_, ?_⟩
      · exact absurd hfalse (by simp)
      · rcases hor with h2 | ⟨q2, hq2, h2⟩
        · cases h2
        · injection hq2 with hq2
          subst hq2
          exact absurd h2 h0
      · exact absurd hfalse (by simp)
      · intro q2 hq2 hne
        injection hq2 with hq2
        subst hq2
        exact ⟨rfl, rfl, rfl, hq, rfl, rfl⟩

/-- C6, witness: a freshly constructed interpreter has no queue installed, so
`init_tick` reports false and changes nothing. -/
theorem C6_witness :
    ((dsp_queue_interpreter.construct 3 0).init_tick).2 = false ∧
    ((dsp_queue_interpreter.construct 3 0).init_tick).1 =
      dsp_queue_interpreter.construct 3 0 := by
  have h := C6_init_tick (dsp_queue_interpreter.construct 3 0)
  have hfalse : ((dsp_queue_interpreter.construct 3 0).init_tick).2 = false :=
    h.1.mpr (Or.inl rfl)
  exact ⟨hfalse, h.2.1 hfalse⟩

/-- C7: installing a nonempty queue returns the previously installed queue,
installs the new queue with its activation counts reset, and recomputes
`used_helper_threads = min(thread_count, min(total_node_count, WORKER_MAX)) - 1`
with `WORKER_MAX` the maximum of the worker-id type. -/
theorem C7_reset_queue_install (i : dsp_queue_interpreter)
    (q : dsp_thread_queue) (_hq : 1 ≤ q.get_total_node_count)
    (_htc : 1 ≤ i.thread_count) :
    (i.reset_queue (some q)).2 = i.queue ∧
    (i.reset_queue (some q)).1.queue = some q.reset_activation_counts ∧
    (i.reset_queue (some q)).1.used_helper_threads =
      min i.thread_count (min q.get_total_node_count thread_count_max) - 1 := by
  refine ⟨rfl, rfl, ?_⟩
  show min (min q.get_total_node_count thread_count_max) i.thread_count - 1 = _
  rw [Nat.min_comm]

/-- C7, witness on a fresh interpreter and the two-item chain. -/
theorem C7_witness :
    ((dsp_queue_interpreter.construct 4 0).reset_queue (some exampleChain2)).2
      = none ∧
    ((dsp_queue_interpreter.construct 4 0).reset_queue
      (some exampleChain2)).1.used_helper_threads = 1 := by
  have h := C7_reset_queue_install (dsp_queue_interpreter.construct 4 0)
    exampleChain2 (by decide) (by decide)
  exact ⟨h.1, h.2.2.trans (by decide)⟩

/-- C9: installing queue A, then queue B, then releasing, hands back first A
(from the second install) and then B (from the release), both with their
counts as the install-time reset left them; afterwards the interpreter's
per-tick state equals the pre-install state of the fresh interpreter: empty
FIFO, `node_count = 0`, no queue installed. -/
theorem C9_install_install_release (tc uht : Nat)
    (A B : dsp_thread_queue) :
    ((dsp_queue_interpreter.construct tc uht).reset_queue (some A)).2 = none ∧
    ((((dsp_queue_interpreter.construct tc uht).reset_queue (some A)).1).reset_queue
      (some B)).2 = some A.reset_activation_counts ∧
    ((((((dsp_queue_interpreter.construct tc uht).reset_queue (some A)).1).reset_queue
      (some B)).1).release_queue).2 = some B.reset_activation_counts ∧
    ((((((dsp_queue_interpreter.construct tc uht).reset_queue (some A)).1).reset_queue
      (some B)).1).release_queue).1.queue = none ∧
    ((((((dsp_queue_interpreter.construct tc uht).reset_queue (some A)).1).reset_queue
      (some B)).1).release_queue).1.fifo = [] ∧
    ((((((dsp_queue_interpreter.construct tc uht).reset_queue (some A)).1).reset_queue
      (some B)).1).release_queue).1.node_count = 0 :=
  ⟨rfl, rfl, rfl, rfl, rfl, rfl⟩

/-- C10: `reset_queue` with a null new queue returns the previously installed
queue and installs none, but neither `used_helper_threads` nor `thread_count`
is recomputed — `get_used_helper_threads` still reports the stale value — and
the FIFO and `node_count` are untouched. -/
theorem C10_reset_queue_none (i : dsp_queue_interpreter) :
    (i.reset_queue none).2 = i.queue ∧
    (i.reset_queue none).1.queue = none ∧
    (i.reset_queue none).1.used_helper_threads = i.used_helper_threads ∧
    (i.reset_queue none).1.thread_count = i.thread_count ∧
    (i.reset_queue none).1.get_used_helper_threads =
      i.get_used_helper_threads ∧
    (i.reset_queue none).1.fifo = i.fifo ∧
    (i.reset_queue none).1.node_count = i.node_count :=
  ⟨rfl, rfl, rfl, rfl, rfl, rfl, rfl⟩

/-- C8: on a nonempty FIFO, the worker runs a direct-successor chain starting
with the dequeued item, then subtracts the chain length `consumed` from
`node_count` with one fetch-sub; it reports `no_remaining_items` (tick done)
exactly when the value of `node_count` before the subtraction equalled
`consumed`, and `remaining_items` (outer loop continues) otherwise. -/
theorem C8_run_next_item_consumes (q : dsp_thread_queue) (fuel : Nat)
    (s : SState) (v : Nat) (rest : List Nat) (hf : s.fifo = v :: rest)
    (_hok : (run_next_item q fuel s).2.2 = true) :
    ∃ chain : List Nat,
      chain.head? = some v ∧
      (run_next_item q fuel s).1.executed = s.executed ++ chain ∧
      (run_next_item q fuel s).1.node_count = s.node_count - chain.length ∧
      ((run_next_item q fuel s).2.1 = RunStatus.no_remaining_items ↔
        s.node_count = chain.length) ∧
      ((run_next_item q fuel s).2.1 = RunStatus.remaining_items ↔
        s.node_count ≠ chain.length) := by
  have heq : run_next_item q fuel s =
      (match run_loop q fuel { s with fifo := rest } v 0 with
       | (s1, consumed, ok) =>
         ({ s1 with node_count := s1.node_count - consumed },
           (if s1.node_count = consumed then RunStatus.no_remaining_items
            else RunStatus.remaining_items), ok)) := by
    unfold run_next_item
    rw [hf]
  obtain ⟨tr, t1, t2, t3⟩ := run_loop_spec q fuel { s with fifo := rest } v 0
  rw [heq]
  rcases hrl : run_loop q fuel { s with fifo := rest } v 0 with
    ⟨s1, consumed, ok⟩
  rw [hrl] at t1 t2 t3
  simp only at t1 t2 t3
  refine ⟨v :: tr, rfl, ?_, ?_, ?_, ?_⟩
  · exact t1
  · show s1.node_count - consumed = _
    rw [t3, t2]
    simp
  · show (if s1.node_count = consumed then RunStatus.no_remaining_items
        else RunStatus.remaining_items) = RunStatus.no_remaining_items ↔ _
    rw [t3, t2]
    by_cases hcase : s.node_count = (v :: tr).length
    · rw [if_pos (by omega)]
      exact ⟨fun _ => hcase, fun _ => rfl⟩
    · rw [if_neg (by omega)]
      exact ⟨fun hcon => absurd hcon (by decide), fun hcon => absurd hcon hcase⟩
  · show (if s1.node_count = consumed then RunStatus.no_remaining_items
        else RunStatus.remaining_items) = RunStatus.remaining_items ↔ _
    rw [t3, t2]
    by_cases hcase : s.node_count = (v :: tr).length
    · rw [if_pos (by omega)]
      exact ⟨fun hcon => absurd hcon (by decide),
        fun hcon => absurd hcase hcon⟩
    · rw [if_neg (by omega)]
      exact ⟨fun _ => hcase, fun _ => rfl⟩

/-- C8, witness on the single-item graph: the dequeued chain is `[0]`,
`node_count` goes from 1 to 0 and the worker reports `no_remaining_items`. -/
theorem C8_witness :
    ∃ chain : List Nat,
      chain.head? = some 0 ∧
      (run_next_item exampleSingle 0
        { counts := [0], fifo := [0], node_count := 1,
          executed := [] }).1.executed = [] ++ chain ∧
      (run_next_item exampleSingle 0
        { counts := [0], fifo := [0], node_count := 1,
          executed := [] }).1.node_count = 1 - chain.length ∧
      ((run_next_item exampleSingle 0
        { counts := [0], fifo := [0], node_count := 1,
          executed := [] }).2.1 = RunStatus.no_remaining_items ↔
        1 = chain.length) ∧
      ((run_next_item exampleSingle 0
        { counts := [0], fifo := [0], node_count := 1,
          executed := [] }).2.1 = RunStatus.remaining_items ↔
        1 ≠ chain.length) :=
  C8_run_next_item_consumes exampleSingle 0
    { counts := [0], fifo := [0], node_count := 1, executed := [] } 0 []
    rfl (by decide)

/-!
The tick invariant: establishment at `initConfig` and preservation by every
interleaved step.
-/

theorem sumW_set (f : WPC → Nat) (ws : List WPC) (w : Nat) (a b : WPC)
    (h : ws[w]? = some a) :
    sumW f (ws.set w b) + f a = sumW f ws + f b :=
  sum_map_set f ws w a b h

theorem le_sumW (f : WPC → Nat) (ws : List WPC) (a : WPC) (h : a ∈ ws) :
    f a ≤ sumW f ws :=
  le_sum_map f ws a h

theorem countN_singleton (x v : Nat) :
    ([v] : List Nat).count x = if v = x then 1 else 0 := by
  rw [show ([v] : List Nat) = v :: [] from rfl, countN_cons]
  simp

theorem ws_wf_set (q : dsp_thread_queue) (ws : List WPC) (w : Nat) (b : WPC)
    (hb : WPCwf q b) (hold : ∀ pc ∈ ws, WPCwf q pc) :
    ∀ pc ∈ ws.set w b, WPCwf q pc := by
  intro pc hpc
  rcases List.mem_or_eq_of_mem_set hpc with h | h
  · exact hold pc h
  · subst h
    exact hb

theorem sumW_replicate (f : WPC → Nat) (nw : Nat) (x : WPC) :
    sumW f (List.replicate nw x) = nw * f x := by
  induction nw with
  | zero => simp [sumW]
  | succ m ih =>
    rw [List.replicate_succ]
    show f x + sumW f (List.replicate m x) = _
    rw [ih]
    ring

theorem initConfig_counts (q : dsp_thread_queue) (nw : Nat) :
    (initConfig q nw).counts =
      q.queue_items.map (fun it => it.activation_limit) := by
  show (q.reset_activation_counts).queue_items.map
    (fun it => it.activation_count) = _
  unfold dsp_thread_queue.reset_activation_counts
  rw [List.map_map]
  rfl

theorem init_counts_getD (q : dsp_thread_queue) (nw v : Nat)
    (hv : v < numItems q) :
    (initConfig q nw).counts.getD v 0 = (qitem q v).activation_limit := by
  rw [initConfig_counts]
  have hlen : v < (q.queue_items.map (fun it => it.activation_limit)).length := by
    simpa [numItems] using hv
  rw [List.getD_eq_getElem _ _ hlen, List.getElem_map]
  show q.queue_items[v].activation_limit = (qitem q v).activation_limit
  unfold qitem
  rw [List.getD_eq_getElem _ _ hv]

theorem init_PD (q : dsp_thread_queue) (nw : Nat) (hwf : GraphWF q) (v : Nat)
    (hv : v < numItems q) :
    PD q (initConfig q nw) v = (qitem q v).activation_limit := by
  unfold PD
  have h2 : sumW (wpcPD v) (initConfig q nw).ws = 0 := by
    show sumW (wpcPD v) (List.replicate nw WPC.top) = 0
    rw [sumW_replicate]
    rfl
  rw [h2]
  unfold staticPD
  have h3 : ∀ p ∈ List.range (numItems q),
      (if (initConfig q nw).executed.count p = 0
        then (qitem q p).successors.count v else 0)
      = (qitem q p).successors.count v := by
    intro p _
    show (if ([] : List Nat).count p = 0 then _ else 0) = _
    simp
  rw [sum_map_congr _ _ _ h3, ← hwf.limit_eq v hv]
  omega

theorem init_placed (q : dsp_thread_queue) (nw v : Nat) :
    placedC (initConfig q nw) v = q.initially_runnable_items.count v := by
  show q.initially_runnable_items.count v +
    sumW (holdsNode v) (List.replicate nw WPC.top) = _
  rw [sumW_replicate]
  rfl

/-- The tick invariant holds at the start of a tick on a well-formed graph. -/
theorem inv_init (q : dsp_thread_queue) (nw : Nat) (hwf : GraphWF q) :
    Inv q (initConfig q nw) := by
  have hexec : ∀ v, execC (initConfig q nw) v = 0 := by
    intro v
    show List.count v [] = 0
    simp
  have hact : ∀ v, actC (initConfig q nw) v = 0 := by
    intro v
    show sumW (actingOn v) (List.replicate nw WPC.top) = 0
    rw [sumW_replicate]
    rfl
  refine ⟨?_, ?_, ?_, ?_, ?_, ?_, ?_, ?_, ?_, ?_⟩
  · rw [initConfig_counts]
    simp [numItems]
  · intro x hx
    cases hx
  · exact hwf.initial_lt
  · intro pc hpc
    have := List.eq_of_mem_replicate hpc
    subst this
    trivial
  · show q.total_node_count + ([] : List Nat).length =
      numItems q + sumW pendingOf (List.replicate nw WPC.top)
    rw [sumW_replicate, hwf.total_eq]
    have hz : pendingOf WPC.top = 0 := rfl
    rw [hz]
    simp
  · intro v
    rw [hexec v]
    omega
  · intro v
    rw [hexec v, hact v]
  · intro v
    rw [hexec v, init_placed]
    by_cases hv : v < numItems q
    · rw [hwf.initial_count v hv]
      split
      · omega
      · omega
    · have hnotin : v ∉ q.initially_runnable_items := fun hc =>
        hv (hwf.initial_lt v hc)
      rw [List.count_eq_zero.mpr hnotin]
      omega
  · intro v hv
    rw [init_PD q nw hwf v hv, hexec v, init_placed, hwf.initial_count v hv]
    by_cases hl : (qitem q v).activation_limit = 0
    · simp [hl]
    · simp [hl]
  · intro v hv
    rw [init_counts_getD q nw v hv, hexec v, init_PD q nw hwf v hv]
    rw [if_neg]
    intro hcon
    omega

/-- Preservation for steps that only move a worker between control states
with no shared-state footprint (`top`, `deq`, `done`). -/
theorem inv_step_same_shared (q : dsp_thread_queue) (c : Config) (w : Nat)
    (a b : WPC) (ha : c.ws[w]? = some a) (hinv : Inv q c)
    (hpend : pendingOf b = pendingOf a)
    (hholds : ∀ x, holdsNode x b = holdsNode x a)
    (hact : ∀ x, actingOn x b = actingOn x a)
    (hpd : ∀ x, wpcPD x b = wpcPD x a)
    (hwfb : WPCwf q b) :
    Inv q { c with ws := c.ws.set w b } := by
  have hsp : sumW pendingOf (c.ws.set w b) = sumW pendingOf c.ws := by
    have h1 := sumW_set pendingOf c.ws w a b ha
    rw [hpend] at h1
    omega
  have hplaced : ∀ x, placedC { c with ws := c.ws.set w b } x = placedC c x := by
    intro x
    show c.fifo.count x + sumW (holdsNode x) (c.ws.set w b) = _
    have h1 := sumW_set (holdsNode x) c.ws w a b ha
    rw [hholds x] at h1
    show _ = c.fifo.count x + sumW (holdsNode x) c.ws
    omega
  have hactC : ∀ x, actC { c with ws := c.ws.set w b } x = actC c x := by
    intro x
    show sumW (actingOn x) (c.ws.set w b) = sumW (actingOn x) c.ws
    have h1 := sumW_set (actingOn x) c.ws w a b ha
    rw [hact x] at h1
    omega
  have hPD : ∀ x, PD q { c with ws := c.ws.set w b } x = PD q c x := by
    intro x
    show staticPD q c x + sumW (wpcPD x) (c.ws.set w b) =
      staticPD q c x + sumW (wpcPD x) c.ws
    have h1 := sumW_set (wpcPD x) c.ws w a b ha
    rw [hpd x] at h1
    omega
  refine ⟨hinv.counts_len, hinv.exec_lt, hinv.fifo_lt,
    ws_wf_set q c.ws w b hwfb hinv.ws_wf, ?_, hinv.exec_le, ?_, ?_, ?_, ?_⟩
  · show c.node_count + c.executed.length = numItems q +
      sumW pendingOf (c.ws.set w b)
    rw [hsp]
    exact hinv.acct
  · intro v
    rw [hactC v]
    exact hinv.act_le v
  · intro v
    rw [hplaced v]
    exact hinv.placed_exec v
  · intro v hv
    rw [hPD v, hplaced v]
    exact hinv.ready_iff v hv
  · intro v hv
    rw [hactC v, hPD v]
    exact hinv.counts_eq v hv

/-- Preservation for `deq_pop`: a dequeued item moves from the FIFO into the
worker's hand. -/
theorem inv_step_deq_pop (q : dsp_thread_queue) (c : Config) (w v : Nat)
    (rest : List Nat) (ha : c.ws[w]? = some WPC.deq) (hf : c.fifo = v :: rest)
    (hinv : Inv q c) :
    Inv q { c with fifo := rest, ws := c.ws.set w (WPC.runJob v 0) } := by
  have hvn : v < numItems q :=
    hinv.fifo_lt v (by rw [hf]; exact List.mem_cons_self v rest)
  have hcount : ∀ x, c.fifo.count x = rest.count x + (if v = x then 1 else 0) := by
    intro x
    rw [hf, countN_cons]
  have hsp : sumW pendingOf (c.ws.set w (WPC.runJob v 0)) =
      sumW pendingOf c.ws := by
    have h1 := sumW_set pendingOf c.ws w WPC.deq (WPC.runJob v 0) ha
    have hz1 : pendingOf WPC.deq = 0 := rfl
    have hz2 : pendingOf (WPC.runJob v 0) = 0 := rfl
    rw [hz1, hz2] at h1
    omega
  have hplaced : ∀ x,
      placedC { c with fifo := rest, ws := c.ws.set w (WPC.runJob v 0) } x =
        placedC c x := by
    intro x
    show rest.count x + sumW (holdsNode x) (c.ws.set w (WPC.runJob v 0)) =
      c.fifo.count x + sumW (holdsNode x) c.ws
    have h1 := sumW_set (holdsNode x) c.ws w WPC.deq (WPC.runJob v 0) ha
    have hz1 : holdsNode x WPC.deq = 0 := rfl
    have hz2 : holdsNode x (WPC.runJob v 0) = if v = x then 1 else 0 := rfl
    rw [hz1, hz2] at h1
    have h2 := hcount x
    by_cases hvx : v = x
    · rw [if_pos hvx] at h1 h2
      omega
    · rw [if_neg hvx] at h1 h2
      omega
  have hactC : ∀ x,
      actC { c with fifo := rest, ws := c.ws.set w (WPC.runJob v 0) } x =
        actC c x := by
    intro x
    show sumW (actingOn x) (c.ws.set w (WPC.runJob v 0)) =
      sumW (actingOn x) c.ws
    have h1 := sumW_set (actingOn x) c.ws w WPC.deq (WPC.runJob v 0) ha
    have hz1 : actingOn x WPC.deq = 0 := rfl
    have hz2 : actingOn x (WPC.runJob v 0) = 0 := rfl
    rw [hz1, hz2] at h1
    omega
  have hPD : ∀ x,
      PD q { c with fifo := rest, ws := c.ws.set w (WPC.runJob v 0) } x =
        PD q c x := by
    intro x
    show staticPD q c x + sumW (wpcPD x) (c.ws.set w (WPC.runJob v 0)) =
      staticPD q c x + sumW (wpcPD x) c.ws
    have h1 := sumW_set (wpcPD x) c.ws w WPC.deq (WPC.runJob v 0) ha
    have hz1 : wpcPD x WPC.deq = 0 := rfl
    have hz2 : wpcPD x (WPC.runJob v 0) = 0 := rfl
    rw [hz1, hz2] at h1
    omega
  refine ⟨hinv.counts_len, hinv.exec_lt, ?_,
    ws_wf_set q c.ws w (WPC.runJob v 0) hvn hinv.ws_wf, ?_, hinv.exec_le,
    ?_, ?_, ?_, ?_⟩
  · intro x hx
    exact hinv.fifo_lt x (by rw [hf]; exact List.mem_cons_of_mem v hx)
  · show c.node_count + c.executed.length = numItems q +
      sumW pendingOf (c.ws.set w (WPC.runJob v 0))
    rw [hsp]
    exact hinv.acct
  · intro x
    rw [hactC x]
    exact hinv.act_le x
  · intro x
    rw [hplaced x]
    exact hinv.placed_exec x
  · intro x hx
    rw [hPD x, hplaced x]
    exact hinv.ready_iff x hx
  · intro x hx
    rw [hactC x, hPD x]
    exact hinv.counts_eq x hx

/-- Preservation for `run_job`: the job of a held ready item is invoked; the
item moves from "placed" to "running". -/
theorem inv_step_run_job (q : dsp_thread_queue) (c : Config) (w v k : Nat)
    (hwf : GraphWF q) (ha : c.ws[w]? = some (WPC.runJob v k))
    (hinv : Inv q c) :
    Inv q { c with
            executed := c.executed ++ [v],
            ws := c.ws.set w (WPC.decSucc v (qitem q v).successors none k) } := by
  set a := WPC.runJob v k with ha'
  set b := WPC.decSucc v (qitem q v).successors none k with hb'
  set c' : Config := { c with
            executed := c.executed ++ [v],
            ws := c.ws.set w b } with hc'
  have hmem : a ∈ c.ws := List.getElem?_mem ha
  have hvn : v < numItems q := hinv.ws_wf a hmem
  have hheld : 1 ≤ sumW (holdsNode v) c.ws := by
    have h0 : holdsNode v a = 1 := by
      show (if v = v then 1 else 0) = 1
      rw [if_pos rfl]
    have h1 := le_sumW (holdsNode v) c.ws a hmem
    omega
  have hplacedv : 1 ≤ placedC c v := by
    show 1 ≤ c.fifo.count v + sumW (holdsNode v) c.ws
    omega
  have hexecv : execC c v = 0 := by
    have h1 := hinv.placed_exec v
    omega
  have hplacedv1 : placedC c v = 1 := by
    have h1 := hinv.placed_exec v
    omega
  have hPDv : PD q c v = 0 := (hinv.ready_iff v hvn).mpr (by omega)
  have hactv : actC c v = 0 := by
    have h1 := hinv.act_le v
    omega
  have hexec' : ∀ x, execC c' x = execC c x + (if v = x then 1 else 0) := by
    intro x
    show (c.executed ++ [v]).count x = c.executed.count x + _
    rw [countN_append, countN_singleton]
  have hsp : sumW pendingOf (c.ws.set w b) = sumW pendingOf c.ws + 1 := by
    have h1 := sumW_set pendingOf c.ws w a b ha
    have hp1 : pendingOf a = k := rfl
    have hp2 : pendingOf b = k + 1 := rfl
    rw [hp1, hp2] at h1
    omega
  have hplaced' : ∀ x,
      placedC c' x + (if v = x then 1 else 0) = placedC c x := by
    intro x
    show c.fifo.count x + sumW (holdsNode x) (c.ws.set w b) + _ =
      c.fifo.count x + sumW (holdsNode x) c.ws
    have h1 := sumW_set (holdsNode x) c.ws w a b ha
    have hh1 : holdsNode x a = if v = x then 1 else 0 := rfl
    have hh2 : holdsNode x b = 0 := rfl
    rw [hh1, hh2] at h1
    omega
  have hact' : ∀ x, actC c' x = actC c x + (if v = x then 1 else 0) := by
    intro x
    show sumW (actingOn x) (c.ws.set w b) =
      sumW (actingOn x) c.ws + (if v = x then 1 else 0)
    have h1 := sumW_set (actingOn x) c.ws w a b ha
    have hh1 : actingOn x a = 0 := rfl
    have hh2 : actingOn x b = if v = x then 1 else 0 := rfl
    rw [hh1, hh2] at h1
    omega
  have hstat : ∀ x, staticPD q c' x + (qitem q v).successors.count x =
      staticPD q c x := by
    intro x
    have key := sum_map_eq_except (List.range (numItems q)) v
      (fun p => if (c.executed ++ [v]).count p = 0
        then (qitem q p).successors.count x else 0)
      (fun p => if c.executed.count p = 0
        then (qitem q p).successors.count x else 0)
      (List.mem_range.mpr hvn) (List.nodup_range _)
      (fun p _ hp => by
        have h5 : (c.executed ++ [v]).count p = c.executed.count p := by
          rw [countN_append, countN_singleton,
            if_neg (fun hh => hp hh.symm)]
          omega
        show (if (c.executed ++ [v]).count p = 0
          then (qitem q p).successors.count x else 0)
          = (if c.executed.count p = 0
            then (qitem q p).successors.count x else 0)
        rw [h5])
    have key2 : ((List.range (numItems q)).map
        (fun p => if (c.executed ++ [v]).count p = 0
          then (qitem q p).successors.count x else 0)).sum +
        (if c.executed.count v = 0
          then (qitem q v).successors.count x else 0) =
        ((List.range (numItems q)).map
        (fun p => if c.executed.count p = 0
          then (qitem q p).successors.count x else 0)).sum +
        (if (c.executed ++ [v]).count v = 0
          then (qitem q v).successors.count x else 0) := key
    have hexecv2 : c.executed.count v = 0 := hexecv
    have hgv : (if c.executed.count v = 0
        then (qitem q v).successors.count x else 0) =
        (qitem q v).successors.count x := by
      rw [if_pos hexecv2]
    have hfv : (if (c.executed ++ [v]).count v = 0
        then (qitem q v).successors.count x else 0) = 0 := by
      rw [if_neg]
      intro hcon
      rw [countN_append, countN_singleton, if_pos rfl] at hcon
      omega
    rw [hgv, hfv] at key2
    show ((List.range (numItems q)).map
      (fun p => if (c.executed ++ [v]).count p = 0
        then (qitem q p).successors.count x else 0)).sum +
        (qitem q v).successors.count x =
      ((List.range (numItems q)).map
      (fun p => if c.executed.count p = 0
        then (qitem q p).successors.count x else 0)).sum
    omega
  have hwpd : ∀ x, sumW (wpcPD x) (c.ws.set w b) =
      sumW (wpcPD x) c.ws + (qitem q v).successors.count x := by
    intro x
    have h1 := sumW_set (wpcPD x) c.ws w a b ha
    have hh1 : wpcPD x a = 0 := rfl
    have hh2 : wpcPD x b = (qitem q v).successors.count x := rfl
    rw [hh1, hh2] at h1
    omega
  have hPD' : ∀ x, PD q c' x = PD q c x := by
    intro x
    have h1 := hstat x
    have h2 := hwpd x
    show staticPD q c' x + sumW (wpcPD x) (c.ws.set w b) = _
    show _ = staticPD q c x + sumW (wpcPD x) c.ws
    omega
  have hwfb : WPCwf q b := by
    refine ⟨hvn, hwf.succ_lt v hvn, ?_⟩
    intro u hu
    cases hu
  refine ⟨hinv.counts_len, ?_, hinv.fifo_lt,
    ws_wf_set q c.ws w b hwfb hinv.ws_wf, ?_, ?_, ?_, ?_, ?_, ?_⟩
  · intro x hx
    rcases List.mem_append.mp hx with h1 | h1
    · exact hinv.exec_lt x h1
    · simp only [List.mem_singleton] at h1
      subst h1
      exact hvn
  · show c.node_count + (c.executed ++ [v]).length =
      numItems q + sumW pendingOf (c.ws.set w b)
    rw [List.length_append, hsp]
    have h1 := hinv.acct
    simp only [List.length_singleton]
    omega
  · intro x
    have h1 := hexec' x
    have h2 := hinv.exec_le x
    by_cases hvx : v = x
    · subst hvx
      rw [if_pos rfl] at h1
      omega
    · rw [if_neg hvx] at h1
      omega
  · intro x
    have h1 := hexec' x
    have h2 := hact' x
    have h3 := hinv.act_le x
    by_cases hvx : v = x
    · subst hvx
      rw [if_pos rfl] at h1 h2
      omega
    · rw [if_neg hvx] at h1 h2
      omega
  · intro x
    have h1 := hexec' x
    have h2 := hplaced' x
    have h3 := hinv.placed_exec x
    by_cases hvx : v = x
    · subst hvx
      rw [if_pos rfl] at h1 h2
      omega
    · rw [if_neg hvx] at h1 h2
      omega
  · intro x hx
    rw [hPD' x]
    by_cases hvx : v = x
    · subst hvx
      have h1 := hexec' v
      have h2 := hplaced' v
      rw [if_pos rfl] at h1 h2
      refine ⟨fun _ => by omega, fun _ => hPDv⟩
    · have e1 : placedC c' x = placedC c x := by
        have h2 := hplaced' x
        rw [if_neg hvx] at h2
        omega
      have e2 : execC c' x = execC c x := by
        have h1 := hexec' x
        rw [if_neg hvx] at h1
        omega
      rw [e1, e2]
      exact hinv.ready_iff x hx
  · intro x hx
    by_cases hvx : v = x
    · subst hvx
      have hold := hinv.counts_eq v hvn
      rw [if_neg (by
        intro hcon
        omega)] at hold
      show c.counts.getD v 0 = _
      rw [if_neg (by
        intro hcon
        have h2 := hact' v
        rw [if_pos rfl] at h2
        omega)]
      rw [hPD' v]
      exact hold
    · have e2 : execC c' x = execC c x := by
        have h1 := hexec' x
        rw [if_neg hvx] at h1
        omega
      have e3 : actC c' x = actC c x := by
        have h2 := hact' x
        rw [if_neg hvx] at h2
        omega
      show c.counts.getD x 0 = _
      simp only [e2, e3, hPD' x]
      exact hinv.counts_eq x hx

theorem holdsNode_decSucc (x v1 v2 : Nat) (l1 l2 : List Nat) (f : Option Nat)
    (k1 k2 : Nat) :
    holdsNode x (WPC.decSucc v1 l1 f k1) = holdsNode x (WPC.decSucc v2 l2 f k2) := by
  cases f <;> rfl

/-- Shared facts about the target `j` of a pending `dec_ref_count`: it is in
range, still owed at least one decrement, not yet placed or run, and its
counter equals its pending-decrement count. -/
theorem dec_target_facts (q : dsp_thread_queue) (c : Config) (w v j : Nat)
    (rest : List Nat) (first : Option Nat) (k : Nat)
    (ha : c.ws[w]? = some (WPC.decSucc v (j :: rest) first k))
    (hinv : Inv q c) :
    j < numItems q ∧ 1 ≤ PD q c j ∧ execC c j = 0 ∧ actC c j = 0 ∧
    placedC c j = 0 ∧ c.counts.getD j 0 = PD q c j := by
  have hmem := List.getElem?_mem ha
  have hwfa := hinv.ws_wf _ hmem
  have hjn : j < numItems q := hwfa.2.1 j (List.mem_cons_self j rest)
  have hwpda : 1 ≤ wpcPD j (WPC.decSucc v (j :: rest) first k) := by
    show 1 ≤ (j :: rest).count j
    rw [countN_cons, if_pos rfl]
    omega
  have hPDj : 1 ≤ PD q c j := by
    have h1 := le_sumW (wpcPD j) c.ws _ hmem
    show 1 ≤ staticPD q c j + sumW (wpcPD j) c.ws
    omega
  have hsum0 : placedC c j + execC c j = 0 := by
    have h2 := hinv.placed_exec j
    rcases hinv.ready_iff j hjn with ⟨h3a, h3b⟩
    by_contra hne
    have h4 : placedC c j + execC c j = 1 := by omega
    have h5 := h3b h4
    omega
  have hexecj : execC c j = 0 := by omega
  have hactj : actC c j = 0 := by
    have h6 := hinv.act_le j
    omega
  have hcnt : c.counts.getD j 0 = PD q c j := by
    have h4 := hinv.counts_eq j hjn
    rw [if_neg (by
      intro hcon
      omega)] at h4
    exact h4
  exact ⟨hjn, hPDj, hexecj, hactj, by omega, hcnt⟩

/-- Preservation for `dec_skip`: a successor's counter is decremented but does
not reach zero. -/
theorem inv_step_dec_skip (q : dsp_thread_queue) (c : Config) (w v j : Nat)
    (rest : List Nat) (first : Option Nat) (k : Nat)
    (ha : c.ws[w]? = some (WPC.decSucc v (j :: rest) first k))
    (hc : c.counts.getD j 0 ≠ 1) (hinv : Inv q c) :
    Inv q { c with
            counts := c.counts.set j (c.counts.getD j 0 - 1),
            ws := c.ws.set w (WPC.decSucc v rest first k) } := by
  set a := WPC.decSucc v (j :: rest) first k with ha'
  set b := WPC.decSucc v rest first k with hb'
  set c' : Config := { c with
            counts := c.counts.set j (c.counts.getD j 0 - 1),
            ws := c.ws.set w b } with hc'
  obtain ⟨hjn, hPDj, hexecj, hactj, hplacedj, hcntj⟩ :=
    dec_target_facts q c w v j rest first k ha hinv
  have hwfa := hinv.ws_wf a (List.getElem?_mem ha)
  have hPDj2 : 2 ≤ PD q c j := by omega
  have hexeq : ∀ x, execC c' x = execC c x := fun x => rfl
  have hsp : sumW pendingOf (c.ws.set w b) = sumW pendingOf c.ws := by
    have h1 := sumW_set pendingOf c.ws w a b ha
    have hp1 : pendingOf a = k + 1 := rfl
    have hp2 : pendingOf b = k + 1 := rfl
    rw [hp1, hp2] at h1
    omega
  have hplaced' : ∀ x, placedC c' x = placedC c x := by
    intro x
    show c.fifo.count x + sumW (holdsNode x) (c.ws.set w b) =
      c.fifo.count x + sumW (holdsNode x) c.ws
    have h1 := sumW_set (holdsNode x) c.ws w a b ha
    have hh : holdsNode x a = holdsNode x b :=
      holdsNode_decSucc x v v (j :: rest) rest first k k
    rw [hh] at h1
    omega
  have hact' : ∀ x, actC c' x = actC c x := by
    intro x
    show sumW (actingOn x) (c.ws.set w b) = sumW (actingOn x) c.ws
    have h1 := sumW_set (actingOn x) c.ws w a b ha
    have hh1 : actingOn x a = if v = x then 1 else 0 := rfl
    have hh2 : actingOn x b = if v = x then 1 else 0 := rfl
    rw [hh1, hh2] at h1
    omega
  have hPD' : ∀ x, PD q c' x + (if j = x then 1 else 0) = PD q c x := by
    intro x
    show staticPD q c x + sumW (wpcPD x) (c.ws.set w b) + _ =
      staticPD q c x + sumW (wpcPD x) c.ws
    have h1 := sumW_set (wpcPD x) c.ws w a b ha
    have hh1 : wpcPD x a = (j :: rest).count x := rfl
    have hh2 : wpcPD x b = rest.count x := rfl
    have hh3 : (j :: rest).count x = rest.count x + (if j = x then 1 else 0) :=
      countN_cons x j rest
    rw [hh1, hh2, hh3] at h1
    omega
  have hcset : c'.counts.getD j 0 = c.counts.getD j 0 - 1 := by
    show (c.counts.set j (c.counts.getD j 0 - 1)).getD j 0 = _
    exact getD_set_self _ _ _ (by rw [hinv.counts_len]; exact hjn)
  have hcne : ∀ x, x ≠ j → c'.counts.getD x 0 = c.counts.getD x 0 := by
    intro x hx
    show (c.counts.set j (c.counts.getD j 0 - 1)).getD x 0 = _
    exact getD_set_ne _ _ _ _ (fun hh => hx hh.symm)
  have hwfb : WPCwf q b := by
    refine ⟨hwfa.1, ?_, hwfa.2.2⟩
    intro x hx
    exact hwfa.2.1 x (List.mem_cons_of_mem j hx)
  refine ⟨?_, hinv.exec_lt, hinv.fifo_lt,
    ws_wf_set q c.ws w b hwfb hinv.ws_wf, ?_, hinv.exec_le, ?_, ?_, ?_, ?_⟩
  · show (c.counts.set j (c.counts.getD j 0 - 1)).length = numItems q
    rw [List.length_set]
    exact hinv.counts_len
  · show c.node_count + c.executed.length = numItems q +
      sumW pendingOf (c.ws.set w b)
    rw [hsp]
    exact hinv.acct
  · intro x
    rw [hact' x, hexeq x]
    exact hinv.act_le x
  · intro x
    rw [hplaced' x, hexeq x]
    exact hinv.placed_exec x
  · intro x hx
    by_cases hjx : j = x
    · subst hjx
      have h5 := hPD' j
      rw [if_pos rfl] at h5
      rw [hplaced' j, hexeq j]
      refine ⟨fun h0 => ?_, fun h1 => ?_⟩
      · omega
      · omega
    · have h5 : PD q c' x = PD q c x := by
        have h6 := hPD' x
        rw [if_neg hjx] at h6
        omega
      rw [h5, hplaced' x, hexeq x]
      exact hinv.ready_iff x hx
  · intro x hx
    by_cases hjx : j = x
    · subst hjx
      rw [hcset]
      rw [if_neg (by
        intro hcon
        rw [hexeq j] at hcon
        omega)]
      have h5 := hPD' j
      rw [if_pos rfl] at h5
      omega
    · rw [hcne x (fun hh => hjx hh.symm)]
      have h5 : PD q c' x = PD q c x := by
        have h6 := hPD' x
        rw [if_neg hjx] at h6
        omega
      simp only [hexeq x, hact' x, h5]
      exact hinv.counts_eq x hx

/-- Preservation for `dec_first`: a successor reaches zero and is captured in
the worker's empty `ptr` slot. -/
theorem inv_step_dec_first (q : dsp_thread_queue) (c : Config) (w v j : Nat)
    (rest : List Nat) (k : Nat)
    (ha : c.ws[w]? = some (WPC.decSucc v (j :: rest) none k))
    (hc : c.counts.getD j 0 = 1) (hinv : Inv q c) :
    Inv q { c with
            counts := c.counts.set j (c.counts.getD j 0 - 1),
            ws := c.ws.set w (WPC.decSucc v rest (some j) k) } := by
  set a := WPC.decSucc v (j :: rest) none k with ha'
  set b := WPC.decSucc v rest (some j) k with hb'
  set c' : Config := { c with
            counts := c.counts.set j (c.counts.getD j 0 - 1),
            ws := c.ws.set w b } with hc'
  obtain ⟨hjn, hPDj, hexecj, hactj, hplacedj, hcntj⟩ :=
    dec_target_facts q c w v j rest none k ha hinv
  have hwfa := hinv.ws_wf a (List.getElem?_mem ha)
  have hPDj1 : PD q c j = 1 := by omega
  have hexeq : ∀ x, execC c' x = execC c x := fun x => rfl
  have hsp : sumW pendingOf (c.ws.set w b) = sumW pendingOf c.ws := by
    have h1 := sumW_set pendingOf c.ws w a b ha
    have hp1 : pendingOf a = k + 1 := rfl
    have hp2 : pendingOf b = k + 1 := rfl
    rw [hp1, hp2] at h1
    omega
  have hplaced' : ∀ x, placedC c' x = placedC c x + (if j = x then 1 else 0) := by
    intro x
    show c.fifo.count x + sumW (holdsNode x) (c.ws.set w b) =
      c.fifo.count x + sumW (holdsNode x) c.ws + (if j = x then 1 else 0)
    have h1 := sumW_set (holdsNode x) c.ws w a b ha
    have hh1 : holdsNode x a = 0 := rfl
    have hh2 : holdsNode x b = if j = x then 1 else 0 := rfl
    rw [hh1, hh2] at h1
    omega
  have hact' : ∀ x, actC c' x = actC c x := by
    intro x
    show sumW (actingOn x) (c.ws.set w b) = sumW (actingOn x) c.ws
    have h1 := sumW_set (actingOn x) c.ws w a b ha
    have hh1 : actingOn x a = if v = x then 1 else 0 := rfl
    have hh2 : actingOn x b = if v = x then 1 else 0 := rfl
    rw [hh1, hh2] at h1
    omega
  have hPD' : ∀ x, PD q c' x + (if j = x then 1 else 0) = PD q c x := by
    intro x
    show staticPD q c x + sumW (wpcPD x) (c.ws.set w b) + _ =
      staticPD q c x + sumW (wpcPD x) c.ws
    have h1 := sumW_set (wpcPD x) c.ws w a b ha
    have hh1 : wpcPD x a = (j :: rest).count x := rfl
    have hh2 : wpcPD x b = rest.count x := rfl
    have hh3 : (j :: rest).count x = rest.count x + (if j = x then 1 else 0) :=
      countN_cons x j rest
    rw [hh1, hh2, hh3] at h1
    omega
  have hcset : c'.counts.getD j 0 = c.counts.getD j 0 - 1 := by
    show (c.counts.set j (c.counts.getD j 0 - 1)).getD j 0 = _
    exact getD_set_self _ _ _ (by rw [hinv.counts_len]; exact hjn)
  have hcne : ∀ x, x ≠ j → c'.counts.getD x 0 = c.counts.getD x 0 := by
    intro x hx
    show (c.counts.set j (c.counts.getD j 0 - 1)).getD x 0 = _
    exact getD_set_ne _ _ _ _ (fun hh => hx hh.symm)
  have hwfb : WPCwf q b := by
    refine ⟨hwfa.1, ?_, ?_⟩
    · intro x hx
      exact hwfa.2.1 x (List.mem_cons_of_mem j hx)
    · intro u hu
      injection hu with hu
      subst hu
      exact hjn
  refine ⟨?_, hinv.exec_lt, hinv.fifo_lt,
    ws_wf_set q c.ws w b hwfb hinv.ws_wf, ?_, hinv.exec_le, ?_, ?_, ?_, ?_⟩
  · show (c.counts.set j (c.counts.getD j 0 - 1)).length = numItems q
    rw [List.length_set]
    exact hinv.counts_len
  · show c.node_count + c.executed.length = numItems q +
      sumW pendingOf (c.ws.set w b)
    rw [hsp]
    exact hinv.acct
  · intro x
    rw [hact' x, hexeq x]
    exact hinv.act_le x
  · intro x
    rw [hplaced' x, hexeq x]
    by_cases hjx : j = x
    · subst hjx
      rw [if_pos rfl]
      omega
    · rw [if_neg hjx]
      have := hinv.placed_exec x
      omega
  · intro x hx
    by_cases hjx : j = x
    · subst hjx
      have h5 := hPD' j
      rw [if_pos rfl] at h5
      have h6 := hplaced' j
      rw [if_pos rfl] at h6
      rw [h6, hexeq j]
      refine ⟨fun _ => by omega, fun _ => by omega⟩
    · have h5 : PD q c' x = PD q c x := by
        have h6 := hPD' x
        rw [if_neg hjx] at h6
        omega
      have h6 := hplaced' x
      rw [if_neg hjx] at h6
      rw [h5, h6, hexeq x]
      have h7 := hinv.ready_iff x hx
      refine ⟨fun h0 => ?_, fun h0 => ?_⟩
      · have := h7.mp h0
        omega
      · exact h7.mpr (by omega)
  · intro x hx
    by_cases hjx : j = x
    · subst hjx
      rw [hcset]
      rw [if_neg (by
        intro hcon
        rw [hexeq j] at hcon
        omega)]
      have h5 := hPD' j
      rw [if_pos rfl] at h5
      omega
    · rw [hcne x (fun hh => hjx hh.symm)]
      have h5 : PD q c' x = PD q c x := by
        have h6 := hPD' x
        rw [if_neg hjx] at h6
        omega
      simp only [hexeq x, hact' x, h5]
      exact hinv.counts_eq x hx

/-- Preservation for `dec_enq`: a successor reaches zero while the `ptr` slot
is occupied and is published through the FIFO. -/
theorem inv_step_dec_enq (q : dsp_thread_queue) (c : Config) (w v j : Nat)
    (rest : List Nat) (u k : Nat)
    (ha : c.ws[w]? = some (WPC.decSucc v (j :: rest) (some u) k))
    (hc : c.counts.getD j 0 = 1) (hinv : Inv q c) :
    Inv q { c with
            counts := c.counts.set j (c.counts.getD j 0 - 1),
            fifo := c.fifo ++ [j],
            ws := c.ws.set w (WPC.decSucc v rest (some u) k) } := by
  set a := WPC.decSucc v (j :: rest) (some u) k with ha'
  set b := WPC.decSucc v rest (some u) k with hb'
  set c' : Config := { c with
            counts := c.counts.set j (c.counts.getD j 0 - 1),
            fifo := c.fifo ++ [j],
            ws := c.ws.set w b } with hc'
  obtain ⟨hjn, hPDj, hexecj, hactj, hplacedj, hcntj⟩ :=
    dec_target_facts q c w v j rest (some u) k ha hinv
  have hwfa := hinv.ws_wf a (List.getElem?_mem ha)
  have hPDj1 : PD q c j = 1 := by omega
  have hexeq : ∀ x, execC c' x = execC c x := fun x => rfl
  have hsp : sumW pendingOf (c.ws.set w b) = sumW pendingOf c.ws := by
    have h1 := sumW_set pendingOf c.ws w a b ha
    have hp1 : pendingOf a = k + 1 := rfl
    have hp2 : pendingOf b = k + 1 := rfl
    rw [hp1, hp2] at h1
    omega
  have hplaced' : ∀ x, placedC c' x = placedC c x + (if j = x then 1 else 0) := by
    intro x
    show (c.fifo ++ [j]).count x + sumW (holdsNode x) (c.ws.set w b) =
      c.fifo.count x + sumW (holdsNode x) c.ws + (if j = x then 1 else 0)
    have h1 := sumW_set (holdsNode x) c.ws w a b ha
    have hh1 : holdsNode x a = if u = x then 1 else 0 := rfl
    have hh2 : holdsNode x b = if u = x then 1 else 0 := rfl
    rw [hh1, hh2] at h1
    have hfc : (c.fifo ++ [j]).count x = c.fifo.count x + (if j = x then 1 else 0) := by
      rw [countN_append, countN_singleton]
    omega
  have hact' : ∀ x, actC c' x = actC c x := by
    intro x
    show sumW (actingOn x) (c.ws.set w b) = sumW (actingOn x) c.ws
    have h1 := sumW_set (actingOn x) c.ws w a b ha
    have hh1 : actingOn x a = if v = x then 1 else 0 := rfl
    have hh2 : actingOn x b = if v = x then 1 else 0 := rfl
    rw [hh1, hh2] at h1
    omega
  have hPD' : ∀ x, PD q c' x + (if j = x then 1 else 0) = PD q c x := by
    intro x
    show staticPD q c x + sumW (wpcPD x) (c.ws.set w b) + _ =
      staticPD q c x + sumW (wpcPD x) c.ws
    have h1 := sumW_set (wpcPD x) c.ws w a b ha
    have hh1 : wpcPD x a = (j :: rest).count x := rfl
    have hh2 : wpcPD x b = rest.count x := rfl
    have hh3 : (j :: rest).count x = rest.count x + (if j = x then 1 else 0) :=
      countN_cons x j rest
    rw [hh1, hh2, hh3] at h1
    omega
  have hcset : c'.counts.getD j 0 = c.counts.getD j 0 - 1 := by
    show (c.counts.set j (c.counts.getD j 0 - 1)).getD j 0 = _
    exact getD_set_self _ _ _ (by rw [hinv.counts_len]; exact hjn)
  have hcne : ∀ x, x ≠ j → c'.counts.getD x 0 = c.counts.getD x 0 := by
    intro x hx
    show (c.counts.set j (c.counts.getD j 0 - 1)).getD x 0 = _
    exact getD_set_ne _ _ _ _ (fun hh => hx hh.symm)
  have hwfb : WPCwf q b := by
    refine ⟨hwfa.1, ?_, hwfa.2.2⟩
    intro x hx
    exact hwfa.2.1 x (List.mem_cons_of_mem j hx)
  refine ⟨?_, hinv.exec_lt, ?_,
    ws_wf_set q c.ws w b hwfb hinv.ws_wf, ?_, hinv.exec_le, ?_, ?_, ?_, ?_⟩
  · show (c.counts.set j (c.counts.getD j 0 - 1)).length = numItems q
    rw [List.length_set]
    exact hinv.counts_len
  · intro x hx
    rcases List.mem_append.mp hx with h1 | h1
    · exact hinv.fifo_lt x h1
    · simp only [List.mem_singleton] at h1
      subst h1
      exact hjn
  · show c.node_count + c.executed.length = numItems q +
      sumW pendingOf (c.ws.set w b)
    rw [hsp]
    exact hinv.acct
  · intro x
    rw [hact' x, hexeq x]
    exact hinv.act_le x
  · intro x
    rw [hplaced' x, hexeq x]
    by_cases hjx : j = x
    · subst hjx
      rw [if_pos rfl]
      omega
    · rw [if_neg hjx]
      have := hinv.placed_exec x
      omega
  · intro x hx
    by_cases hjx : j = x
    · subst hjx
      have h5 := hPD' j
      rw [if_pos rfl] at h5
      have h6 := hplaced' j
      rw [if_pos rfl] at h6
      rw [h6, hexeq j]
      refine ⟨fun _ => by omega, fun _ => by omega⟩
    · have h5 : PD q c' x = PD q c x := by
        have h6 := hPD' x
        rw [if_neg hjx] at h6
        omega
      have h6 := hplaced' x
      rw [if_neg hjx] at h6
      rw [h5, h6, hexeq x]
      have h7 := hinv.ready_iff x hx
      refine ⟨fun h0 => ?_, fun h0 => ?_⟩
      · have := h7.mp h0
        omega
      · exact h7.mpr (by omega)
  · intro x hx
    by_cases hjx : j = x
    · subst hjx
      rw [hcset]
      rw [if_neg (by
        intro hcon
        rw [hexeq j] at hcon
        omega)]
      have h5 := hPD' j
      rw [if_pos rfl] at h5
      omega
    · rw [hcne x (fun hh => hjx hh.symm)]
      have h5 : PD q c' x = PD q c x := by
        have h6 := hPD' x
        rw [if_neg hjx] at h6
        omega
      simp only [hexeq x, hact' x, h5]
      exact hinv.counts_eq x hx

/-- Shared facts about the item `v` whose `update_dependencies` has finished:
it has run (exactly this worker is on it) and is not placed anywhere. -/
theorem chain_source_facts (q : dsp_thread_queue) (c : Config) (w v : Nat)
    (first : Option Nat) (k : Nat)
    (ha : c.ws[w]? = some (WPC.decSucc v [] first k)) (hinv : Inv q c) :
    v < numItems q ∧ execC c v = 1 ∧ actC c v = 1 ∧ placedC c v = 0 := by
  have hmem := List.getElem?_mem ha
  have hwfa := hinv.ws_wf _ hmem
  have hvn : v < numItems q := hwfa.1
  have hacta : actingOn v (WPC.decSucc v [] first k) = 1 := by
    show (if v = v then 1 else 0) = 1
    rw [if_pos rfl]
  have hact1 : 1 ≤ actC c v := by
    have h1 := le_sumW (actingOn v) c.ws _ hmem
    rw [hacta] at h1
    exact h1
  have h2 := hinv.act_le v
  have h3 := hinv.exec_le v
  have h4 := hinv.placed_exec v
  exact ⟨hvn, by omega, by omega, by omega⟩

/-- Preservation for `chain_next`: the finished item resets its own counter
and hands its captured successor to the do-while loop. -/
theorem inv_step_chain_next (q : dsp_thread_queue) (c : Config) (w v u k : Nat)
    (ha : c.ws[w]? = some (WPC.decSucc v [] (some u) k)) (hinv : Inv q c) :
    Inv q { c with
            counts := c.counts.set v (qitem q v).activation_limit,
            ws := c.ws.set w (WPC.runJob u (k + 1)) } := by
  set a := WPC.decSucc v [] (some u) k with ha'
  set b := WPC.runJob u (k + 1) with hb'
  set c' : Config := { c with
            counts := c.counts.set v (qitem q v).activation_limit,
            ws := c.ws.set w b } with hc'
  obtain ⟨hvn, hexecv, hactv, hplacedv⟩ :=
    chain_source_facts q c w v (some u) k ha hinv
  have hwfa := hinv.ws_wf a (List.getElem?_mem ha)
  have hun : u < numItems q := hwfa.2.2 u rfl
  have hheldu : 1 ≤ sumW (holdsNode u) c.ws := by
    have h0 : holdsNode u a = 1 := by
      show (if u = u then 1 else 0) = 1
      rw [if_pos rfl]
    have h1 := le_sumW (holdsNode u) c.ws a (List.getElem?_mem ha)
    omega
  have hnuv : u ≠ v := by
    intro hh
    subst hh
    have : 1 ≤ placedC c u := by
      show 1 ≤ c.fifo.count u + sumW (holdsNode u) c.ws
      omega
    omega
  have hexeq : ∀ x, execC c' x = execC c x := fun x => rfl
  have hsp : sumW pendingOf (c.ws.set w b) = sumW pendingOf c.ws := by
    have h1 := sumW_set pendingOf c.ws w a b ha
    have hp1 : pendingOf a = k + 1 := rfl
    have hp2 : pendingOf b = k + 1 := rfl
    rw [hp1, hp2] at h1
    omega
  have hplaced' : ∀ x, placedC c' x = placedC c x := by
    intro x
    show c.fifo.count x + sumW (holdsNode x) (c.ws.set w b) =
      c.fifo.count x + sumW (holdsNode x) c.ws
    have h1 := sumW_set (holdsNode x) c.ws w a b ha
    have hh1 : holdsNode x a = if u = x then 1 else 0 := rfl
    have hh2 : holdsNode x b = if u = x then 1 else 0 := rfl
    rw [hh1, hh2] at h1
    omega
  have hact' : ∀ x, actC c' x + (if v = x then 1 else 0) = actC c x := by
    intro x
    show sumW (actingOn x) (c.ws.set w b) + _ = sumW (actingOn x) c.ws
    have h1 := sumW_set (actingOn x) c.ws w a b ha
    have hh1 : actingOn x a = if v = x then 1 else 0 := rfl
    have hh2 : actingOn x b = 0 := rfl
    rw [hh1, hh2] at h1
    omega
  have hPD' : ∀ x, PD q c' x = PD q c x := by
    intro x
    show staticPD q c x + sumW (wpcPD x) (c.ws.set w b) =
      staticPD q c x + sumW (wpcPD x) c.ws
    have h1 := sumW_set (wpcPD x) c.ws w a b ha
    have hh1 : wpcPD x a = 0 := rfl
    have hh2 : wpcPD x b = 0 := rfl
    rw [hh1, hh2] at h1
    omega
  have hcset : c'.counts.getD v 0 = (qitem q v).activation_limit := by
    show (c.counts.set v (qitem q v).activation_limit).getD v 0 = _
    exact getD_set_self _ _ _ (by rw [hinv.counts_len]; exact hvn)
  have hcne : ∀ x, x ≠ v → c'.counts.getD x 0 = c.counts.getD x 0 := by
    intro x hx
    show (c.counts.set v (qitem q v).activation_limit).getD x 0 = _
    exact getD_set_ne _ _ _ _ (fun hh => hx hh.symm)
  refine ⟨?_, hinv.exec_lt, hinv.fifo_lt,
    ws_wf_set q c.ws w b hun hinv.ws_wf, ?_, hinv.exec_le, ?_, ?_, ?_, ?_⟩
  · show (c.counts.set v (qitem q v).activation_limit).length = numItems q
    rw [List.length_set]
    exact hinv.counts_len
  · show c.node_count + c.executed.length = numItems q +
      sumW pendingOf (c.ws.set w b)
    rw [hsp]
    exact hinv.acct
  · intro x
    have h1 := hact' x
    have h2 := hinv.act_le x
    rw [hexeq x]
    by_cases hvx : v = x
    · rw [if_pos hvx] at h1
      omega
    · rw [if_neg hvx] at h1
      omega
  · intro x
    rw [hplaced' x, hexeq x]
    exact hinv.placed_exec x
  · intro x hx
    rw [hPD' x, hplaced' x, hexeq x]
    exact hinv.ready_iff x hx
  · intro x hx
    by_cases hvx : v = x
    · subst hvx
      have e2 : actC c' v = 0 := by
        have h1 := hact' v
        rw [if_pos rfl] at h1
        omega
      rw [hcset, if_pos ⟨by rw [hexeq v]; exact hexecv, e2⟩]
    · rw [hcne x (fun hh => hvx hh.symm)]
      have e3 : actC c' x = actC c x := by
        have h1 := hact' x
        rw [if_neg hvx] at h1
        omega
      simp only [hexeq x, e3, hPD' x]
      exact hinv.counts_eq x hx

/-- Preservation for `chain_done`: the finished item resets its own counter
and the worker proceeds to the node-count fetch-sub. -/
theorem inv_step_chain_done (q : dsp_thread_queue) (c : Config) (w v k : Nat)
    (ha : c.ws[w]? = some (WPC.decSucc v [] none k)) (hinv : Inv q c) :
    Inv q { c with
            counts := c.counts.set v (qitem q v).activation_limit,
            ws := c.ws.set w (WPC.fsub (k + 1)) } := by
  set a := WPC.decSucc v [] none k with ha'
  set b := WPC.fsub (k + 1) with hb'
  set c' : Config := { c with
            counts := c.counts.set v (qitem q v).activation_limit,
            ws := c.ws.set w b } with hc'
  obtain ⟨hvn, hexecv, hactv, hplacedv⟩ :=
    chain_source_facts q c w v none k ha hinv
  have hexeq : ∀ x, execC c' x = execC c x := fun x => rfl
  have hsp : sumW pendingOf (c.ws.set w b) = sumW pendingOf c.ws := by
    have h1 := sumW_set pendingOf c.ws w a b ha
    have hp1 : pendingOf a = k + 1 := rfl
    have hp2 : pendingOf b = k + 1 := rfl
    rw [hp1, hp2] at h1
    omega
  have hplaced' : ∀ x, placedC c' x = placedC c x := by
    intro x
    show c.fifo.count x + sumW (holdsNode x) (c.ws.set w b) =
      c.fifo.count x + sumW (holdsNode x) c.ws
    have h1 := sumW_set (holdsNode x) c.ws w a b ha
    have hh1 : holdsNode x a = 0 := rfl
    have hh2 : holdsNode x b = 0 := rfl
    rw [hh1, hh2] at h1
    omega
  have hact' : ∀ x, actC c' x + (if v = x then 1 else 0) = actC c x := by
    intro x
    show sumW (actingOn x) (c.ws.set w b) + _ = sumW (actingOn x) c.ws
    have h1 := sumW_set (actingOn x) c.ws w a b ha
    have hh1 : actingOn x a = if v = x then 1 else 0 := rfl
    have hh2 : actingOn x b = 0 := rfl
    rw [hh1, hh2] at h1
    omega
  have hPD' : ∀ x, PD q c' x = PD q c x := by
    intro x
    show staticPD q c x + sumW (wpcPD x) (c.ws.set w b) =
      staticPD q c x + sumW (wpcPD x) c.ws
    have h1 := sumW_set (wpcPD x) c.ws w a b ha
    have hh1 : wpcPD x a = 0 := rfl
    have hh2 : wpcPD x b = 0 := rfl
    rw [hh1, hh2] at h1
    omega
  have hcset : c'.counts.getD v 0 = (qitem q v).activation_limit := by
    show (c.counts.set v (qitem q v).activation_limit).getD v 0 = _
    exact getD_set_self _ _ _ (by rw [hinv.counts_len]; exact hvn)
  have hcne : ∀ x, x ≠ v → c'.counts.getD x 0 = c.counts.getD x 0 := by
    intro x hx
    show (c.counts.set v (qitem q v).activation_limit).getD x 0 = _
    exact getD_set_ne _ _ _ _ (fun hh => hx hh.symm)
  refine ⟨?_, hinv.exec_lt, hinv.fifo_lt,
    ws_wf_set q c.ws w b trivial hinv.ws_wf, ?_, hinv.exec_le, ?_, ?_, ?_, ?_⟩
  · show (c.counts.set v (qitem q v).activation_limit).length = numItems q
    rw [List.length_set]
    exact hinv.counts_len
  · show c.node_count + c.executed.length = numItems q +
      sumW pendingOf (c.ws.set w b)
    rw [hsp]
    exact hinv.acct
  · intro x
    have h1 := hact' x
    have h2 := hinv.act_le x
    rw [hexeq x]
    by_cases hvx : v = x
    · rw [if_pos hvx] at h1
      omega
    · rw [if_neg hvx] at h1
      omega
  · intro x
    rw [hplaced' x, hexeq x]
    exact hinv.placed_exec x
  · intro x hx
    rw [hPD' x, hplaced' x, hexeq x]
    exact hinv.ready_iff x hx
  · intro x hx
    by_cases hvx : v = x
    · subst hvx
      have e2 : actC c' v = 0 := by
        have h1 := hact' v
        rw [if_pos rfl] at h1
        omega
      rw [hcset, if_pos ⟨by rw [hexeq v]; exact hexecv, e2⟩]
    · rw [hcne x (fun hh => hvx hh.symm)]
      have e3 : actC c' x = actC c x := by
        have h1 := hact' x
        rw [if_neg hvx] at h1
        omega
      simp only [hexeq x, e3, hPD' x]
      exact hinv.counts_eq x hx

/-- Preservation for the `fetch_sub(consumed)` on `node_count` (both the
final and the continuing outcome): the committed chain leaves the in-flight
accounting. -/
theorem inv_step_fsub (q : dsp_thread_queue) (c : Config) (w k : Nat)
    (b : WPC) (ha : c.ws[w]? = some (WPC.fsub k))
    (hbp : pendingOf b = 0) (hbh : ∀ x, holdsNode x b = 0)
    (hba : ∀ x, actingOn x b = 0) (hbw : ∀ x, wpcPD x b = 0)
    (hwfb : WPCwf q b) (hinv : Inv q c) :
    Inv q { c with
            node_count := c.node_count - k,
            ws := c.ws.set w b } := by
  set a := WPC.fsub k with ha'
  set c' : Config := { c with
            node_count := c.node_count - k,
            ws := c.ws.set w b } with hc'
  have hmem := List.getElem?_mem ha
  have hklesum : k ≤ sumW pendingOf c.ws := by
    have h1 := le_sumW pendingOf c.ws a hmem
    have hp : pendingOf a = k := rfl
    omega
  have hlen := length_eq_sum_counts c.executed (numItems q) hinv.exec_lt
  have hlenle : c.executed.length ≤ numItems q := by
    rw [hlen]
    have h2 := sum_map_le_length (List.range (numItems q))
      (fun x => c.executed.count x) (fun x _ => hinv.exec_le x)
    simpa using h2
  have hknc : k ≤ c.node_count := by
    have h3 := hinv.acct
    omega
  have hsp : sumW pendingOf (c.ws.set w b) + k = sumW pendingOf c.ws := by
    have h1 := sumW_set pendingOf c.ws w a b ha
    have hp : pendingOf a = k := rfl
    rw [hp, hbp] at h1
    omega
  have hplaced' : ∀ x, placedC c' x = placedC c x := by
    intro x
    show c.fifo.count x + sumW (holdsNode x) (c.ws.set w b) =
      c.fifo.count x + sumW (holdsNode x) c.ws
    have h1 := sumW_set (holdsNode x) c.ws w a b ha
    have hh1 : holdsNode x a = 0 := rfl
    rw [hh1, hbh x] at h1
    omega
  have hact' : ∀ x, actC c' x = actC c x := by
    intro x
    show sumW (actingOn x) (c.ws.set w b) = sumW (actingOn x) c.ws
    have h1 := sumW_set (actingOn x) c.ws w a b ha
    have hh1 : actingOn x a = 0 := rfl
    rw [hh1, hba x] at h1
    omega
  have hPD' : ∀ x, PD q c' x = PD q c x := by
    intro x
    show staticPD q c x + sumW (wpcPD x) (c.ws.set w b) =
      staticPD q c x + sumW (wpcPD x) c.ws
    have h1 := sumW_set (wpcPD x) c.ws w a b ha
    have hh1 : wpcPD x a = 0 := rfl
    rw [hh1, hbw x] at h1
    omega
  refine ⟨hinv.counts_len, hinv.exec_lt, hinv.fifo_lt,
    ws_wf_set q c.ws w b hwfb hinv.ws_wf, ?_, hinv.exec_le, ?_, ?_, ?_, ?_⟩
  · show c.node_count - k + c.executed.length = numItems q +
      sumW pendingOf (c.ws.set w b)
    have h3 := hinv.acct
    omega
  · intro x
    rw [hact' x]
    exact hinv.act_le x
  · intro x
    rw [hplaced' x]
    exact hinv.placed_exec x
  · intro x hx
    rw [hPD' x, hplaced' x]
    exact hinv.ready_iff x hx
  · intro x hx
    simp only [hact' x, hPD' x]
    exact hinv.counts_eq x hx

/-- The tick invariant is preserved by every interleaved worker step. -/
theorem inv_step (q : dsp_thread_queue) (hwf : GraphWF q) (c c' : Config)
    (hinv : Inv q c) (hstep : Step q c c') : Inv q c' := by
  cases hstep with
  | top_done w h h0 =>
    exact inv_step_same_shared q c w WPC.top WPC.done h hinv rfl
      (fun x => rfl) (fun x => rfl) (fun x => rfl) trivial
  | top_go w h h0 =>
    exact inv_step_same_shared q c w WPC.top WPC.deq h hinv rfl
      (fun x => rfl) (fun x => rfl) (fun x => rfl) trivial
  | deq_empty w h hf =>
    exact inv_step_same_shared q c w WPC.deq WPC.top h hinv rfl
      (fun x => rfl) (fun x => rfl) (fun x => rfl) trivial
  | deq_pop w v rest h hf =>
    exact inv_step_deq_pop q c w v rest h hf hinv
  | run_job w v k h =>
    exact inv_step_run_job q c w v k hwf h hinv
  | dec_skip w v j rest first k h hc =>
    exact inv_step_dec_skip q c w v j rest first k h hc hinv
  | dec_first w v j rest k h hc =>
    exact inv_step_dec_first q c w v j rest k h hc hinv
  | dec_enq w v j rest u k h hc =>
    exact inv_step_dec_enq q c w v j rest u k h hc hinv
  | chain_next w v u k h =>
    exact inv_step_chain_next q c w v u k h hinv
  | chain_done w v k h =>
    exact inv_step_chain_done q c w v k h hinv
  | fsub_last w k h hk =>
    exact inv_step_fsub q c w k WPC.done h rfl (fun x => rfl) (fun x => rfl)
      (fun x => rfl) trivial hinv
  | fsub_cont w k h hk =>
    exact inv_step_fsub q c w k WPC.top h rfl (fun x => rfl) (fun x => rfl)
      (fun x => rfl) trivial hinv

/-- The tick invariant holds in every reachable configuration. -/
theorem inv_reach (q : dsp_thread_queue) (nw : Nat) (hwf : GraphWF q)
    (c : Config) (hr : Reach q (initConfig q nw) c) : Inv q c := by
  induction hr with
  | refl => exact inv_init q nw hwf
  | tail hsteps hstep ih => exact inv_step q hwf _ _ ih hstep

/-- C1: on any installed well-formed graph, for any number of workers and any
interleaving of the master's and the helpers' loops, no item's job is ever
invoked twice; and in any reachable configuration with `node_count = 0` — the
condition under which `tick_master`'s `wait_for_end` returns and the tick
ends — every item of the graph has had its job invoked exactly once. -/
theorem C1_every_node_exactly_once (q : dsp_thread_queue) (nw : Nat)
    (hwf : GraphWF q) (c : Config) (hr : Reach q (initConfig q nw) c) :
    (∀ v, c.executed.count v ≤ 1) ∧
    (c.node_count = 0 → ∀ v, v < numItems q → c.executed.count v = 1) := by
  have hinv := inv_reach q nw hwf c hr
  refine ⟨hinv.exec_le, ?_⟩
  intro h0
  have hsum := length_eq_sum_counts c.executed (numItems q) hinv.exec_lt
  have hle : ((List.range (numItems q)).map (fun v => c.executed.count v)).sum
      ≤ numItems q := by
    have h2 := sum_map_le_length (List.range (numItems q))
      (fun x => c.executed.count x) (fun x _ => hinv.exec_le x)
    simpa using h2
  have hacct := hinv.acct
  rw [h0] at hacct
  have hlen_eq : c.executed.length = numItems q := by omega
  have hsum_eq : ((List.range (numItems q)).map
      (fun v => c.executed.count v)).sum = numItems q := by
    rw [← hsum]
    exact hlen_eq
  exact sum_counts_all_one (fun v => c.executed.count v) (numItems q)
    hinv.exec_le hsum_eq

/-- C1, witness: a complete single-worker tick on the one-item graph reaches
`node_count = 0` having run the item exactly once. -/
theorem C1_witness :
    ({ counts := [0], fifo := [], node_count := 0, executed := [0],
       ws := [WPC.done] } : Config).executed.count 0 = 1 := by
  have hwf : GraphWF exampleSingle :=
    ⟨by decide, by decide, by decide, by decide, by decide⟩
  have hr : Reach exampleSingle (initConfig exampleSingle 1)
      ({ counts := [0], fifo := [], node_count := 0, executed := [0],
         ws := [WPC.done] } : Config) := by
    refine Relation.ReflTransGen.head (Step.top_go _ 0 rfl (by decide)) ?_
    refine Relation.ReflTransGen.head (Step.deq_pop _ 0 0 [] rfl rfl) ?_
    refine Relation.ReflTransGen.head (Step.run_job _ 0 0 0 rfl) ?_
    refine Relation.ReflTransGen.head (Step.chain_done _ 0 0 0 rfl) ?_
    refine Relation.ReflTransGen.head (Step.fsub_last _ 0 1 rfl rfl) ?_
    exact Relation.ReflTransGen.refl
  exact (C1_every_node_exactly_once exampleSingle 1 hwf _ hr).2 rfl 0
    (by decide)

/-- Glue between the interpreter lifecycle and the tick machine: installing a
nonempty queue into a fresh interpreter and running `init_tick` produces
exactly the shared state `initConfig` starts the machine from (counters reset
to the limits, `node_count` holding the total, FIFO seeded with the initially
runnable items). -/
theorem install_init_tick_matches_initConfig (tc uht nw : Nat)
    (q : dsp_thread_queue) (h : q.get_total_node_count ≠ 0) :
    ((((dsp_queue_interpreter.construct tc uht).reset_queue (some q)).1).init_tick).2
      = true ∧
    ((((dsp_queue_interpreter.construct tc uht).reset_queue (some q)).1).init_tick).1.node_count
      = (initConfig q nw).node_count ∧
    ((((dsp_queue_interpreter.construct tc uht).reset_queue (some q)).1).init_tick).1.fifo
      = (initConfig q nw).fifo ∧
    ((((dsp_queue_interpreter.construct tc uht).reset_queue (some q)).1).init_tick).1.queue
      = some q.reset_activation_counts ∧
    (q.reset_activation_counts).queue_items.map (fun it => it.activation_count)
      = (initConfig q nw).counts := by
  have hq : (((dsp_queue_interpreter.construct tc uht).reset_queue
      (some q)).1).queue = some q.reset_activation_counts := rfl
  have htot : (q.reset_activation_counts).get_total_node_count =
      q.get_total_node_count := rfl
  have hstep : (((dsp_queue_interpreter.construct tc uht).reset_queue
        (some q)).1).init_tick =
      ({ ((dsp_queue_interpreter.construct tc uht).reset_queue (some q)).1 with
          node_count := (q.reset_activation_counts).get_total_node_count,
          fifo := [] ++ (q.reset_activation_counts).initially_runnable_items },
        true) := by
    unfold dsp_queue_interpreter.init_tick
    rw [hq]
    dsimp only
    rw [if_neg (by rw [htot]; exact h)]
    rfl
  rw [hstep]
  refine ⟨rfl, ?_, ?_, rfl, rfl⟩
  · exact htot
  · show [] ++ (q.reset_activation_counts).initially_runnable_items =
      q.initially_runnable_items
    rw [List.nil_append]
    rfl

/-- In every reachable configuration, a worker about to invoke `run` on an
item sees that item's `activation_count` at 0: the `assert(activation_count
== 0)` at the head of `dsp_thread_queue_item::run` never trips. -/
theorem run_assert_reachable (q : dsp_thread_queue) (nw : Nat)
    (hwf : GraphWF q) (c : Config) (hr : Reach q (initConfig q nw) c)
    (w v k : Nat) (h : c.ws[w]? = some (WPC.runJob v k)) :
    c.counts.getD v 0 = 0 := by
  have hinv := inv_reach q nw hwf c hr
  have hmem := List.getElem?_mem h
  have hvn : v < numItems q := hinv.ws_wf _ hmem
  have hheld : 1 ≤ sumW (holdsNode v) c.ws := by
    have h0 : holdsNode v (WPC.runJob v k) = 1 := by
      show (if v = v then 1 else 0) = 1
      rw [if_pos rfl]
    have h1 := le_sumW (holdsNode v) c.ws _ hmem
    omega
  have hplacedv : 1 ≤ placedC c v := by
    show 1 ≤ c.fifo.count v + sumW (holdsNode v) c.ws
    omega
  have h2 := hinv.placed_exec v
  have hexecv : execC c v = 0 := by omega
  have hPDv : PD q c v = 0 := (hinv.ready_iff v hvn).mpr (by omega)
  have h4 := hinv.counts_eq v hvn
  rw [if_neg (by
    intro hcon
    omega)] at h4
  rw [h4, hPDv]

end Nova
